import Mathlib

/-!
Verification development for the hybrid retrieval & reranking engine of the
`micro-services` repository.

Shallow embedding conventions:
* Python floats and JSON numbers are modelled as exact rationals (`ℚ`); where
  real-valued functions (square roots in cosine similarity) appear, values are
  modelled in `ℝ`.  Non-finite float literals (`NaN`, `Infinity`) are outside
  the numeric model.
* Fallible Python code (raising exceptions) is modelled with `Except`/`Option`.
* `dict` values coming from `json.loads` are modelled by the inductive `JVal`;
  Python `dict` insertion-order semantics are modelled explicitly.
-/

set_option maxRecDepth 10000

/-- JSON values as produced by Python's `json.loads`: `None`, booleans,
numbers (ints and floats collapsed into exact rationals), strings, lists and
(insertion-ordered) dicts. -/
inductive JVal where
  | null : JVal
  | bool (b : Bool) : JVal
  | num (q : ℚ) : JVal
  | str (s : String) : JVal
  | arr (elems : List JVal) : JVal
  | obj (fields : List (String × JVal)) : JVal

/-- JSON whitespace characters (as accepted between tokens by `json.loads`). -/
def jsonWs (c : Char) : Bool :=
  c = ' ' || c = '\t' || c = '\n' || c = '\r'

/-- Drop leading JSON whitespace. -/
def skipJsonWs : List Char → List Char
  | [] => []
  | c :: cs => if jsonWs c then skipJsonWs cs else c :: cs

/-- Split a leading run of decimal digits from the input. -/
def takeDigits : List Char → (List Char × List Char)
  | [] => ([], [])
  | c :: cs =>
    if c.isDigit then
      let p := takeDigits cs
      (c :: p.1, p.2)
    else ([], c :: cs)

/-- Numeric value of a digit string (most significant first). -/
def digitsVal (ds : List Char) : ℕ :=
  ds.foldl (fun acc c => acc * 10 + (c.toNat - '0'.toNat)) 0

/-- Parse the JSON number grammar `-?(0|[1-9][0-9]*)(\.[0-9]+)?([eE][-+]?[0-9]+)?`
starting at the head of the input, returning the exact rational value. -/
def parseJsonNum (cs : List Char) : Option (ℚ × List Char) := do
  let (neg, cs) := match cs with
    | '-' :: rest => (true, rest)
    | rest => (false, rest)
  let (ds, cs) := takeDigits cs
  if ds.isEmpty then none else
  -- JSON forbids leading zeros on multi-digit integer parts
  if ds.head? = some '0' ∧ ds.length > 1 then none else
  let intPart : ℚ := (digitsVal ds : ℚ)
  let (fracPart, cs) ←
    match cs with
    | '.' :: rest =>
      let (fs, rest') := takeDigits rest
      if fs.isEmpty then none
      else some (((digitsVal fs : ℚ) / (10 : ℚ) ^ fs.length, rest'))
    | rest => some ((0, rest))
  let (expVal, cs) ←
    match cs with
    | 'e' :: rest | 'E' :: rest =>
      let (eneg, rest) := match rest with
        | '-' :: r => (true, r)
        | '+' :: r => (false, r)
        | r => (false, r)
      let (es, rest') := takeDigits rest
      if es.isEmpty then none
      else some (((if eneg then -(digitsVal es : ℤ) else (digitsVal es : ℤ)), rest'))
    | rest => some (((0 : ℤ), rest))
  let mag : ℚ := intPart + fracPart
  let scaled : ℚ :=
    if 0 ≤ expVal then mag * (10 : ℚ) ^ expVal.toNat
    else mag / (10 : ℚ) ^ (-expVal).toNat
  some ((if neg then -scaled else scaled), cs)

/-- Value of a hexadecimal digit. -/
def hexVal (c : Char) : Option ℕ :=
  if c.isDigit then some (c.toNat - '0'.toNat)
  else if 'a' ≤ c ∧ c ≤ 'f' then some (c.toNat - 'a'.toNat + 10)
  else if 'A' ≤ c ∧ c ≤ 'F' then some (c.toNat - 'A'.toNat + 10)
  else none

/-- Parse the body of a JSON string (the opening quote already consumed),
with the escape sequences accepted by `json.loads` in strict mode; unescaped
control characters are rejected. -/
def parseJsonStr : List Char → List Char → Option (String × List Char)
  | acc, '"' :: rest => some (String.mk acc.reverse, rest)
  | acc, '\\' :: e :: rest =>
    match e with
    | '"' => parseJsonStr ('"' :: acc) rest
    | '\\' => parseJsonStr ('\\' :: acc) rest
    | '/' => parseJsonStr ('/' :: acc) rest
    | 'b' => parseJsonStr ('\x08' :: acc) rest
    | 'f' => parseJsonStr ('\x0c' :: acc) rest
    | 'n' => parseJsonStr ('\n' :: acc) rest
    | 'r' => parseJsonStr ('\r' :: acc) rest
    | 't' => parseJsonStr ('\t' :: acc) rest
    | 'u' =>
      match rest with
      | h1 :: h2 :: h3 :: h4 :: rest' =>
        match hexVal h1, hexVal h2, hexVal h3, hexVal h4 with
        | some a, some b, some c, some d =>
          parseJsonStr (Char.ofNat (((a * 16 + b) * 16 + c) * 16 + d) :: acc) rest'
        | _, _, _, _ => none
      | _ => none
    | _ => none
  | acc, c :: rest =>
    if c.toNat < 0x20 then none else parseJsonStr (c :: acc) rest
  | _, [] => none

/-- One pass of the JSON array element loop (the opening `[` and any leading
whitespace handled by the caller); `pv` parses one value at the current
nesting depth.  Fuel-indexed structurally so that the kernel can evaluate it. -/
def parseArrLoop (pv : List Char → Option (JVal × List Char)) :
    ℕ → List Char → Option (List JVal × List Char)
  | 0, _ => none
  | n + 1, cs => do
    let (v, cs') ← pv cs
    match skipJsonWs cs' with
    | ',' :: rest =>
      -- a trailing comma (`[1,]`) is not accepted by `json.loads`
      (match skipJsonWs rest with
       | ']' :: _ => none
       | _ => (parseArrLoop pv n rest).map (fun p => (v :: p.1, p.2)))
    | ']' :: rest => some ([v], rest)
    | _ => none

/-- One pass of the JSON object field loop (the opening `{` handled by the
caller). -/
def parseObjLoop (pv : List Char → Option (JVal × List Char)) :
    ℕ → List Char → Option (List (String × JVal) × List Char)
  | 0, _ => none
  | n + 1, cs =>
    match skipJsonWs cs with
    | '"' :: rest => do
      let (k, cs') ← parseJsonStr [] rest
      match skipJsonWs cs' with
      | ':' :: cs2 => do
        let (v, cs3) ← pv cs2
        match skipJsonWs cs3 with
        | ',' :: rest' =>
          -- a trailing comma (`{"a":1,}`) is not accepted by `json.loads`
          (match skipJsonWs rest' with
           | '}' :: _ => none
           | _ => (parseObjLoop pv n rest').map (fun p => ((k, v) :: p.1, p.2)))
        | '}' :: rest' => some ([(k, v)], rest')
        | _ => none
      | _ => none
    | _ => none

/-- Fuel-indexed recursive-descent parser for one JSON value, mirroring the
grammar accepted by `json.loads` (minus the non-standard `NaN`/`Infinity`
literals, which have no rational value).  The fuel bounds the nesting depth;
one unit is consumed per nested container, so any fuel above the input length
is sufficient. -/
def parseJsonVal : ℕ → List Char → Option (JVal × List Char)
  | 0, _ => none
  | fuel + 1, cs =>
    match skipJsonWs cs with
    | '{' :: rest =>
      (match skipJsonWs rest with
       | '}' :: rest' => some (JVal.obj [], rest')
       | _ => (parseObjLoop (parseJsonVal fuel) (rest.length + 1) rest).map
           (fun p => (JVal.obj p.1, p.2)))
    | '[' :: rest =>
      (match skipJsonWs rest with
       | ']' :: rest' => some (JVal.arr [], rest')
       | _ => (parseArrLoop (parseJsonVal fuel) (rest.length + 1) rest).map
           (fun p => (JVal.arr p.1, p.2)))
    | '"' :: rest => (parseJsonStr [] rest).map (fun p => (JVal.str p.1, p.2))
    | 't' :: 'r' :: 'u' :: 'e' :: rest => some (JVal.bool true, rest)
    | 'f' :: 'a' :: 'l' :: 's' :: 'e' :: rest => some (JVal.bool false, rest)
    | 'n' :: 'u' :: 'l' :: 'l' :: rest => some (JVal.null, rest)
    | cs' => (parseJsonNum cs').map (fun p => (JVal.num p.1, p.2))

/-- Parse a complete JSON document as `json.loads`, requiring only whitespace
after the value. -/
def loads (s : String) : Option JVal :=
  match parseJsonVal (s.length + 1) s.toList with
  | some (v, rest) => if (skipJsonWs rest).isEmpty then some v else none
  | none => none

/-- Restriction of `json.loads` to the `isinstance(val, list)` check used by the
extraction code: succeed only when the text parses as a JSON array. -/
def parsedArray (cs : List Char) : Option (List JVal) :=
  match loads (String.mk cs) with
  | some (JVal.arr l) => some l
  | _ => none

/-! ### Text scanners used by `_extract_json_array` (rerank.py) -/

/-- Python `\s` (ASCII range; the Unicode whitespace extension is irrelevant
to the claims considered here). -/
def pyWs (c : Char) : Bool :=
  c = ' ' || c = '\t' || c = '\n' || c = '\r' || c = '\x0c' || c = '\x0b'

/-- Drop a maximal leading run of `\s*`. -/
def dropPyWs : List Char → List Char
  | [] => []
  | c :: cs => if pyWs c then dropPyWs cs else c :: cs

/-- Find the first occurrence of `pat` as a contiguous substring: returns the
text before the occurrence and the text after it. -/
def findSub (pat : List Char) : List Char → Option (List Char × List Char)
  | [] => if pat.isEmpty then some ([], []) else none
  | c :: cs =>
    if List.isPrefixOf pat (c :: cs) then some ([], (c :: cs).drop pat.length)
    else
      match findSub pat cs with
      | some (pre, suf) => some (c :: pre, suf)
      | none => none

/-- One-sided fuel-indexed loop for
`re.sub(r"<think>.*?</think>", "", text, flags=re.S)`: repeatedly remove the
span from the next `<think>` opener to the first `</think>` after it; if an
opener has no closer, nothing further matches. -/
def stripThinkFuel : ℕ → List Char → List Char
  | 0, cs => cs
  | fuel + 1, cs =>
    match findSub "<think>".toList cs with
    | none => cs
    | some (pre, rest) =>
      match findSub "</think>".toList rest with
      | none => cs
      | some (_, suf) => pre ++ stripThinkFuel fuel suf

/-- Strip `<think>...</think>` blocks (step 2 of the extraction). -/
def stripThink (cs : List Char) : List Char :=
  stripThinkFuel cs.length cs

/-- After a candidate `]`, the regex `\s*```​` must close the fenced block;
returns the remainder after the closing fence on success. -/
def fenceClose (cs : List Char) : Option (List Char) :=
  let cs' := dropPyWs cs
  if List.isPrefixOf "```".toList cs' then some (cs'.drop 3) else none

/-- Lazy body match for `(\[[\s\S]*?\])\s*```​`: starting after the opening
`[`, try each subsequent `]` (nearest first) as the capture's closing bracket,
accepting the first whose tail matches `\s*```​`.  Returns the capture's inner
characters and the remainder after the closing fence. -/
def fenceBody : List Char → List Char → Option (List Char × List Char)
  | acc, [] => none
  | acc, ']' :: rest =>
    match fenceClose rest with
    | some rem => some (acc.reverse, rem)
    | none => fenceBody (']' :: acc) rest
  | acc, c :: rest => fenceBody (c :: acc) rest

/-- Case-insensitive match of the 4 characters `json`. -/
def jsonTag : List Char → Bool
  | c1 :: c2 :: c3 :: c4 :: _ =>
    c1.toLower = 'j' && c2.toLower = 's' && c3.toLower = 'o' && c4.toLower = 'n'
  | _ => false

/-- Attempt the fenced-block regex `​```(?:json)?\s*(\[[\s\S]*?\])\s*```​`
(flags `re.I`) anchored at the head of the input; on success returns the
capture (including its brackets) and the remainder after the whole match.
The optional `json` tag is greedy with backtracking, as in the `re` engine. -/
def fenceAt (cs : List Char) : Option (List Char × List Char) :=
  if List.isPrefixOf "```".toList cs then
    let q := cs.drop 3
    let tryBody : List Char → Option (List Char × List Char) := fun r =>
      match dropPyWs r with
      | '[' :: t => (fenceBody [] t).map (fun p => ('[' :: (p.1 ++ [']']), p.2))
      | _ => none
    match (if jsonTag q then tryBody (q.drop 4) else none) with
    | some res => some res
    | none => tryBody q
  else none

/-- Scan of `re.findall` for the fenced-block pattern: try each start position
left to right, resuming after the end of a full match (non-overlapping). -/
def fenceScanFuel : ℕ → List Char → List (List Char)
  | 0, _ => []
  | _, [] => []
  | fuel + 1, c :: cs =>
    match fenceAt (c :: cs) with
    | some (cap, rem) => cap :: fenceScanFuel fuel rem
    | none => fenceScanFuel fuel cs

/-- All fenced-block captures of the cleaned text, in found order. -/
def fenceFindall (cs : List Char) : List (List Char) :=
  fenceScanFuel cs.length cs

/-- The bracket-depth scan of step 4: walk the text left to right tracking
`[`/`]` depth (ignoring stray `]` at depth 0) and record the start/end indices
of the last complete top-level span. -/
def lastSpanGo : List Char → ℕ → ℕ → Option ℕ → Option (ℕ × ℕ) → Option (ℕ × ℕ)
  | [], _, _, _, last => last
  | c :: cs, i, depth, start, last =>
    if c = '[' then
      lastSpanGo cs (i + 1) (depth + 1) (if depth = 0 then some i else start) last
    else if c = ']' then
      if 0 < depth then
        lastSpanGo cs (i + 1) (depth - 1) start
          (if depth - 1 = 0 then
            (match start with
             | some s => some (s, i)
             | none => last)
           else last)
      else lastSpanGo cs (i + 1) depth start last
    else lastSpanGo cs (i + 1) depth start last

/-- The last complete top-level `[...]` span of the text, if any. -/
def lastSpan (cs : List Char) : Option (List Char) :=
  (lastSpanGo cs 0 0 none none).map (fun p => (cs.drop p.1).take (p.2 - p.1 + 1))

/-- Extraction `_extract_json_array` (rerank.py): try to parse the whole text as a JSON
array; otherwise strip `<think>` blocks, collect the fenced-block captures and
the last top-level bracket span as candidates, and return the first candidate
in `reversed(candidates)` order that parses as a JSON array; raise otherwise. -/
def _extract_json_array (text : String) : Except String (List JVal) :=
  match parsedArray text.toList with
  | some l => Except.ok l
  | none =>
    let cleaned := stripThink text.toList
    let fences := fenceFindall cleaned
    let candidates := fences ++ (lastSpan cleaned).toList
    match candidates.reverse.findSome? parsedArray with
    | some l => Except.ok l
    | none => Except.error "rerank response not JSON array"

/-! ### Python numeric coercions and rerank item validation (rerank.py) -/

/-- Strip leading and trailing Python whitespace (as `int(...)`/`float(...)`
do on string arguments). -/
def stripPyWs (cs : List Char) : List Char :=
  (dropPyWs (dropPyWs cs.reverse).reverse).reverse.reverse

/-- Python `int(s)` on a string: optional sign then decimal digits (digit
separators and non-ASCII digits are outside the model). -/
def pyIntOfStr (s : String) : Option ℤ :=
  let cs := stripPyWs s.toList
  let p : Bool × List Char :=
    match cs with
    | '-' :: r => (true, r)
    | '+' :: r => (false, r)
    | r => (false, r)
  let d := takeDigits p.2
  if d.1.isEmpty ∨ ¬ d.2.isEmpty then none
  else some (if p.1 then -(digitsVal d.1 : ℤ) else (digitsVal d.1 : ℤ))

/-- Python `float(s)` on a string: optional sign, then `digits [. digits]` or
`. digits`, then an optional exponent.  The non-finite literals
(`inf`/`infinity`/`nan`) have no rational value and are outside the model. -/
def pyFloatOfStr (s : String) : Option ℚ := do
  let cs := stripPyWs s.toList
  let (neg, cs) : Bool × List Char :=
    match cs with
    | '-' :: r => (true, r)
    | '+' :: r => (false, r)
    | r => (false, r)
  let (ds, cs) := takeDigits cs
  let (frac, cs) ←
    match cs with
    | '.' :: r =>
      let (fs, r') := takeDigits r
      if ds.isEmpty ∧ fs.isEmpty then none
      else some (((digitsVal fs : ℚ) / (10 : ℚ) ^ fs.length, r'))
    | r => if ds.isEmpty then none else some (((0 : ℚ), r))
  let (expVal, cs) ←
    match cs with
    | 'e' :: r | 'E' :: r =>
      let (eneg, r) : Bool × List Char :=
        match r with
        | '-' :: r' => (true, r')
        | '+' :: r' => (false, r')
        | r' => (false, r')
      let (es, r') := takeDigits r
      if es.isEmpty then none
      else some (((if eneg then -(digitsVal es : ℤ) else (digitsVal es : ℤ)), r'))
    | r => some (((0 : ℤ), r))
  if ¬ cs.isEmpty then none
  else
    let mag : ℚ := (digitsVal ds : ℚ) + frac
    let scaled : ℚ :=
      if 0 ≤ expVal then mag * (10 : ℚ) ^ expVal.toNat
      else mag / (10 : ℚ) ^ (-expVal).toNat
    some (if neg then -scaled else scaled)

/-- Truncation toward zero, as Python `int(float)`. -/
def truncQ (q : ℚ) : ℤ :=
  if 0 ≤ q then ⌊q⌋ else ⌈q⌉

/-- Python `int(x)` on a JSON-decoded value: numbers truncate toward zero,
booleans coerce to 0/1, strings must spell an integer; `None`, lists and
dicts raise. -/
def pyInt : JVal → Option ℤ
  | JVal.bool b => some (if b then 1 else 0)
  | JVal.num q => some (truncQ q)
  | JVal.str s => pyIntOfStr s
  | _ => none

/-- Python `float(x)` on a JSON-decoded value. -/
def pyFloat : JVal → Option ℚ
  | JVal.bool b => some (if b then 1 else 0)
  | JVal.num q => some q
  | JVal.str s => pyFloatOfStr s
  | _ => none

/-- Python `str(x)` on a JSON-decoded value: total (never raises).  Only the
string case is text-faithful; the exact `repr` text of non-string values is
immaterial to every claim and abstracted. -/
def pyStr : JVal → String
  | JVal.str s => s
  | JVal.bool b => if b then "True" else "False"
  | JVal.null => "None"
  | JVal.num q => toString q
  | JVal.arr _ => "<list>"
  | JVal.obj _ => "<dict>"

/-- Python `dict.get` on a JSON-decoded object (`json.loads` keeps the last
binding of a duplicated key). -/
def dictGet (fields : List (String × JVal)) (k : String) : Option JVal :=
  (fields.reverse.find? (fun p => p.1 = k)).map (fun p => p.2)

/-- A present JSON `null` and an absent key both read back as Python `None`. -/
def denull : Option JVal → Option JVal
  | some JVal.null => none
  | o => o

/-- One parsed rerank item `{index, score, document}` (llm-service schema
`RerankResult`: `index: int`, `score: float`, `document: str`). -/
structure RerankResult where
  index : ℤ
  score : ℚ
  document : String
deriving DecidableEq

/-- Validate and coerce one parsed item, as the loop body of `rerank`
(rerank.py lines 268-274): a non-dict item raises (`it.get`), a missing or
null `index`/`score`/`document` raises, and `int(idx)`/`float(score)` must
succeed; `str(doc)` always succeeds. -/
def itemize : JVal → Except String RerankResult
  | JVal.obj fields =>
    match denull (dictGet fields "index"), denull (dictGet fields "score"),
        denull (dictGet fields "document") with
    | some iv, some sv, some dv =>
      match pyInt iv, pyFloat sv with
      | some i, some sc => Except.ok ⟨i, sc, pyStr dv⟩
      | _, _ => Except.error "invalid rerank item"
    | _, _, _ => Except.error "invalid rerank item"
  | _ => Except.error "invalid rerank item"

/-- The per-item validation loop of `rerank`: results accumulate in order and
the first bad item aborts the whole batch (the Python loop raises, and the
partially built list is discarded). -/
def processItems : List JVal → Except String (List RerankResult)
  | [] => Except.ok []
  | it :: rest =>
    match itemize it with
    | Except.error e => Except.error e
    | Except.ok r => (processItems rest).map (fun rs => r :: rs)

/-- The remote-rerank result assembly (rerank.py lines 266-276): extract the
JSON array from the model text, then validate every item; any exception
propagates, producing no partial results. -/
def rerankFromContent (content : String) : Except String (List RerankResult) :=
  match _extract_json_array content with
  | Except.error e => Except.error e
  | Except.ok items => processItems items

/-! ### The retrieval orchestrator (rag-service search.py) -/

/-- rag-service `SearchItem` schema: `id: int`, `score: float`,
`summary: Optional[str]`, `keywords: Optional[List[str]]`. -/
structure SearchItem where
  id : ℤ
  score : ℚ
  summary : Option String
  keywords : Option (List String)
deriving DecidableEq

/-- rag-service `SearchRequest` schema (`top_k` defaults to 5). -/
structure SearchRequest where
  query : String
  top_k : ℤ
deriving DecidableEq

/-- rag-service `SearchResponse` schema. -/
structure SearchResponse where
  answer : String
  items : List SearchItem
deriving DecidableEq

/-- A keyword-search row (a `Document` with its summary and keywords). -/
structure KwDoc where
  id : ℤ
  content_summary : Option String
  keywords : Option (List String)
deriving DecidableEq

/-- A vector-search row: `(id, content_summary, keywords, distance)`. -/
structure VecRow where
  id : ℤ
  content_summary : Option String
  keywords : Option (List String)
  distance : ℚ
deriving DecidableEq

/-- Python dict assignment `merged[item.id] = item` on an insertion-ordered
dict keyed by `id`: the existing slot keeps its position. -/
def dictReplace : List SearchItem → SearchItem → List SearchItem
  | [], _ => []
  | x :: xs, item =>
    if x.id = item.id then
      (if x.score < item.score then item else x) :: xs
    else x :: dictReplace xs item

/-- One step of the candidate merger (search.py lines 81-84): insert a new
id at the end; for a present id, overwrite in place only when the incoming
score is strictly higher. -/
def mergeInsert (merged : List SearchItem) (item : SearchItem) : List SearchItem :=
  if (merged.find? (fun x => x.id = item.id)).isSome then dictReplace merged item
  else merged ++ [item]

/-- The candidate merger: walk `kw_items + vec_items` in order through the
insertion-ordered dict and read the values back out. -/
def mergeItems (l : List SearchItem) : List SearchItem :=
  l.foldl mergeInsert []

/-- The retrieval orchestrator `search` (search.py lines 32-113), shallowly
embedded over the collaborator responses it consumes: the keyword rows, the
vector rows (the vector SQL carries `LIMIT top_k`), the rerank collaborator's
HTTP outcome (`Except` for a non-2xx status raised by `raise_for_status`;
`Option` for the `resp.json().get("items", items)` fallback when a 2xx body
lacks `items`), and the chat collaborator's outcome.  Any raised error is
caught by the route's `except` and surfaces as an HTTP 500. -/
def search (payload : SearchRequest) (kwDocs : List KwDoc) (vecRows : List VecRow)
    (rerankResp : Except String (Option (List SearchItem)))
    (chatResp : Except String (Option String)) : Except String SearchResponse :=
  let kw_items : List SearchItem :=
    kwDocs.map (fun d => ⟨d.id, 1 / 2, d.content_summary, d.keywords⟩)
  let vec_items : List SearchItem :=
    vecRows.map (fun r => ⟨r.id, 1 / (1 + r.distance), r.content_summary, r.keywords⟩)
  let items := mergeItems (kw_items ++ vec_items)
  match rerankResp with
  | Except.error e => Except.error ("搜索流程失败: " ++ e)
  | Except.ok raw =>
    let reranked_raw := raw.getD items
    let reranked_items : List SearchItem :=
      reranked_raw.map (fun it => ⟨it.id, it.score, it.summary, it.keywords⟩)
    match chatResp with
    | Except.error e => Except.error ("搜索流程失败: " ++ e)
    | Except.ok answer => Except.ok ⟨answer.getD "", reranked_items⟩

/-! ### The rerank consumer (llm-service gateway.py `gateway_reranker`) -/

/-- A decoded Python dict (keys assumed distinct, as `json.loads` produces). -/
abbrev PyDict : Type := List (String × JVal)

/-- Python dict assignment `orig["score"] = v`: overwrite in place if the key
exists, else append. -/
def dictSet (k : String) (v : JVal) : List (String × JVal) → List (String × JVal)
  | [] => [(k, v)]
  | (k', v') :: rest => if k' = k then (k, v) :: rest else (k', v') :: dictSet k v rest

/-- The consumer loop of `gateway_reranker` (gateway.py lines 135-144): for
each rerank result, skip it when its index is out of range for the original
`items`, else copy the original item at that index with its score updated. -/
def gatewayApply (results : List RerankResult) (items : List PyDict) : List PyDict :=
  results.foldl
    (fun ordered r =>
      if r.index < 0 ∨ (items.length : ℤ) ≤ r.index then ordered
      else ordered ++ [dictSet "score" (JVal.num r.score) (items.getD r.index.toNat [])])
    []

/-! ### Similarity kernel and MMR selector (rerank.py), over `ℝ`

Python floats are modelled as real numbers; `math.sqrt` is `Real.sqrt`. -/

/-- Elementwise dot product (`dot += ai * bi`); extra elements of the longer
list are never reached because the callers check the lengths first. -/
def dotProd : List ℝ → List ℝ → ℝ
  | a :: as, b :: bs => a * b + dotProd as bs
  | _, _ => 0

/-- Sum of squares (`na += ai * ai`). -/
def normSq (v : List ℝ) : ℝ := dotProd v v

open Classical in
/-- Kernel `_cosine_sim` (rerank.py lines 29-46): 0 for an empty vector, a length
mismatch, or a zero norm; otherwise `dot / (sqrt(na) * sqrt(nb))`. -/
noncomputable def _cosine_sim (a b : List ℝ) : ℝ :=
  if a.isEmpty ∨ b.isEmpty then 0
  else if a.length ≠ b.length then 0
  else if normSq a = 0 ∨ normSq b = 0 then 0
  else dotProd a b / (Real.sqrt (normSq a) * Real.sqrt (normSq b))

open Classical in
/-- Kernel `_cosine_similarity` (search.py lines 20-29): the same guards, with the
zero test applied to the square roots `na`/`nb` themselves. -/
noncomputable def _cosine_similarity (a b : List ℝ) : ℝ :=
  if a.isEmpty ∨ b.isEmpty ∨ a.length ≠ b.length then 0
  else
    let na := Real.sqrt (normSq a)
    let nb := Real.sqrt (normSq b)
    if na = 0 ∨ nb = 0 then 0 else dotProd a b / (na * nb)

/-- One MMR result `(index, score, document)` with a real-valued score. -/
structure RerankResultR where
  index : ℕ
  score : ℝ
  document : String

/-- Python `max(...)` over a nonempty sequence of floats (the empty case is
never reached by the guarded caller). -/
def pyMaxList : List ℝ → ℝ
  | [] => 0
  | x :: xs => xs.foldl max x

/-- The diversity term: `max(cos(doc[i], doc[j]) for j in selected)` when
something is selected, else `0.0`. -/
noncomputable def mmrPenalty (simm : ℕ → ℕ → ℝ) (selected : List ℕ) (i : ℕ) : ℝ :=
  match selected with
  | [] => 0
  | _ => pyMaxList (selected.map (fun j => simm i j))

/-- The expression `score = lam * rel[i] - (1.0 - lam) * max_sim_to_selected`. -/
noncomputable def mmrScore (rel : ℕ → ℝ) (simm : ℕ → ℕ → ℝ) (lam : ℝ)
    (selected : List ℕ) (i : ℕ) : ℝ :=
  lam * rel i - (1 - lam) * mmrPenalty simm selected i

open Classical in
/-- The inner argmax loop: fold over the remaining candidates in iteration
order with `best_idx = None, best_score = -1e9`, replacing only on a strictly
larger score (so the first maximum in iteration order wins).  CPython iterates
a set of small ints in ascending numeric order, so the caller passes the
remaining candidates as an ascending list. -/
noncomputable def pickBest (f : ℕ → ℝ) (l : List ℕ) : Option ℕ × ℝ :=
  l.foldl (fun b i => if b.2 < f i then (some i, f i) else b)
    (none, -1000000000)

open Classical in
/-- The greedy selection loop of `_mmr_rank`: `k` rounds, each selecting the
best-scoring remaining candidate, breaking if none was selectable. -/
noncomputable def mmrLoop (rel : ℕ → ℝ) (simm : ℕ → ℕ → ℝ) (lam : ℝ) :
    ℕ → List ℕ → List ℕ → List (ℕ × ℝ)
  | 0, _, _ => []
  | fuel + 1, remaining, selected =>
    match pickBest (mmrScore rel simm lam selected) remaining with
    | (none, _) => []
    | (some b, s) =>
      (b, s) :: mmrLoop rel simm lam fuel (remaining.erase b) (selected ++ [b])

open Classical in
/-- Selector `_mmr_rank` (rerank.py lines 49-84): raise on a `doc_vecs`/`docs` length
mismatch, return nothing for `k <= 0`, clamp `k` to the candidate count, and
run the greedy MMR selection recording each selected index with its score and
document. -/
noncomputable def _mmr_rank (query_vec : List ℝ) (doc_vecs : List (List ℝ))
    (docs : List String) (k : ℤ) (lam : ℝ) : Except String (List RerankResultR) :=
  let n := doc_vecs.length
  if n ≠ docs.length then Except.error "doc_vecs 与 docs 数量不一致"
  else if k ≤ 0 then Except.ok []
  else
    let kk := min k.toNat n
    let rel := fun i => _cosine_sim query_vec (doc_vecs.getD i [])
    let simm := fun i j => _cosine_sim (doc_vecs.getD i []) (doc_vecs.getD j [])
    Except.ok ((mmrLoop rel simm lam kk (List.range n) []).map
      (fun p => ⟨p.1, p.2, docs.getD p.1 ""⟩))

/-! ## Claim theorems -/

/-- C4 -- (error_handling): for every orchestrated search in which the
reranking step fails (the gateway call raised: non-2xx status or transport
error), the whole orchestration aborts with an error propagated to the
caller; in particular it never responds successfully, so it never substitutes
the unranked merged candidate order for a reranked order. -/
theorem search_aborts_on_rerank_failure (payload : SearchRequest)
    (kwDocs : List KwDoc) (vecRows : List VecRow) (e : String)
    (chatResp : Except String (Option String)) :
    search payload kwDocs vecRows (Except.error e) chatResp =
      Except.error ("搜索流程失败: " ++ e) := rfl

/-- C2 counterexample --: a concrete successful search whose response holds
2 items although `top_k = 1` — the ordered context is not bounded to `top_k`. -/
theorem search_exceeds_topk :
    (search (SearchRequest.mk "python" 1)
        [KwDoc.mk 1 none none, KwDoc.mk 2 none none] []
        (Except.ok (some [SearchItem.mk 1 (9/10) none none,
                          SearchItem.mk 2 (1/2) none none]))
        (Except.ok (some "ans"))).map (fun r => r.items.length) = Except.ok 2
    ∧ ¬ ((2 : ℤ) ≤ (SearchRequest.mk "python" 1).top_k) := by
  exact ⟨rfl, by decide⟩

/-- C2 amended --: a successful orchestrated search returns exactly the item
list produced by the rerank collaborator (one response item per reranked
entry, order preserved); no `top_k` bound is applied to it — `top_k` only
limits the vector-search query. -/
theorem search_returns_all_reranked (payload : SearchRequest)
    (kwDocs : List KwDoc) (vecRows : List VecRow) (l : List SearchItem)
    (answer : Option String) :
    search payload kwDocs vecRows (Except.ok (some l)) (Except.ok answer) =
      Except.ok (SearchResponse.mk (answer.getD "") l) := by
  simp [search]

/-- C9 -- (error_handling): the consumer of a rerank result list drops every
result whose index is out of range for the original `items` silently (it
contributes nothing and raises nothing) and maps every in-range result back
to the item at its index, with the score updated. -/
theorem gatewayApply_filters_out_of_range (results : List RerankResult)
    (items : List PyDict) :
    gatewayApply results items =
      results.filterMap (fun r =>
        if 0 ≤ r.index ∧ r.index < (items.length : ℤ) then
          some (dictSet "score" (JVal.num r.score) (items.getD r.index.toNat []))
        else none) := by
  have h : ∀ (rs : List RerankResult) (acc : List PyDict),
      rs.foldl
        (fun ordered r =>
          if r.index < 0 ∨ (items.length : ℤ) ≤ r.index then ordered
          else ordered ++ [dictSet "score" (JVal.num r.score) (items.getD r.index.toNat [])])
        acc
      = acc ++ rs.filterMap (fun r =>
          if 0 ≤ r.index ∧ r.index < (items.length : ℤ) then
            some (dictSet "score" (JVal.num r.score) (items.getD r.index.toNat []))
          else none) := by
    intro rs
    induction rs with
    | nil => intro acc; simp
    | cons r rs ih =>
      intro acc
      simp only [List.foldl_cons, List.filterMap_cons]
      by_cases hc : r.index < 0 ∨ (items.length : ℤ) ≤ r.index
      · have hn : ¬ (0 ≤ r.index ∧ r.index < (items.length : ℤ)) := by omega
        rw [if_pos hc, if_neg hn, ih]
      · have hp : 0 ≤ r.index ∧ r.index < (items.length : ℤ) := by omega
        rw [if_neg hc, if_pos hp, ih]
        simp
  simpa [gatewayApply] using h results []

/-! ### Lemmas about the candidate merger (for C8) -/

/-- The id sequence of a candidate list. -/
def ids (l : List SearchItem) : List ℤ := l.map (fun x => x.id)

/-- First-occurrence deduplication of a list of ids (specification-side
description of Python dict key order). -/
def firstOccur : List ℤ → List ℤ
  | [] => []
  | x :: xs => x :: firstOccur (xs.filter (fun y => y ≠ x))
termination_by l => l.length
decreasing_by
  simp only [List.length_cons]
  exact Nat.lt_succ_of_le (List.length_filter_le _ _)

theorem firstOccur_sublist_mem {a : ℤ} : ∀ {l : List ℤ}, a ∈ firstOccur l → a ∈ l
  | [], h => by simp [firstOccur] at h
  | x :: xs, h => by
    rw [firstOccur] at h
    rcases List.mem_cons.mp h with h | h
    · exact h ▸ List.mem_cons_self _ _
    · exact List.mem_cons_of_mem _ (List.mem_of_mem_filter (firstOccur_sublist_mem h))
termination_by l => l.length
decreasing_by
  simp only [List.length_cons]
  exact Nat.lt_succ_of_le (List.length_filter_le _ _)

theorem firstOccur_nodup : ∀ (l : List ℤ), (firstOccur l).Nodup
  | [] => by simp [firstOccur]
  | x :: xs => by
    rw [firstOccur]
    refine List.nodup_cons.mpr ⟨fun hx => ?_, firstOccur_nodup _⟩
    have := List.mem_filter.mp (firstOccur_sublist_mem hx)
    simp at this
termination_by l => l.length
decreasing_by
  simp only [List.length_cons]
  exact Nat.lt_succ_of_le (List.length_filter_le _ _)

theorem dictReplace_ids (y : SearchItem) :
    ∀ (m : List SearchItem), ids (dictReplace m y) = ids m := by
  intro m
  induction m with
  | nil => rfl
  | cons x xs ih =>
    rw [dictReplace]
    by_cases hxy : x.id = y.id
    · rw [if_pos hxy]
      by_cases hs : x.score < y.score <;> simp [ids, hs, hxy]
    · rw [if_neg hxy]
      simpa [ids] using ih

theorem find?_isSome_iff_mem_ids (m : List SearchItem) (i : ℤ) :
    (m.find? (fun x => x.id = i)).isSome = true ↔ i ∈ ids m := by
  rw [List.find?_isSome]
  simp [ids, eq_comm]

theorem mergeInsert_ids (m : List SearchItem) (y : SearchItem) :
    ids (mergeInsert m y) =
      if y.id ∈ ids m then ids m else ids m ++ [y.id] := by
  rw [mergeInsert]
  by_cases hy : y.id ∈ ids m
  · rw [if_pos ((find?_isSome_iff_mem_ids m y.id).mpr hy), if_pos hy,
      dictReplace_ids]
  · rw [if_neg (by simpa using (find?_isSome_iff_mem_ids m y.id).not.mpr hy),
      if_neg hy]
    simp [ids]

theorem mergeFold_ids :
    ∀ (l : List SearchItem) (m : List SearchItem),
      ids (l.foldl mergeInsert m) =
        ids m ++ firstOccur ((ids l).filter (fun i => ¬ i ∈ ids m)) := by
  intro l
  induction l with
  | nil => intro m; simp [ids, firstOccur]
  | cons y l ih =>
    intro m
    rw [List.foldl_cons, ih (mergeInsert m y), mergeInsert_ids]
    have hyl : ids (y :: l) = y.id :: ids l := rfl
    by_cases hy : y.id ∈ ids m
    · rw [if_pos hy, hyl, List.filter_cons]
      simp [hy]
    · rw [if_neg hy, hyl, List.filter_cons]
      have hyb : decide (¬ y.id ∈ ids m) = true := by simpa using hy
      rw [hyb, if_pos rfl, firstOccur, List.filter_filter]
      simp only [List.append_assoc, List.singleton_append]
      congr 2
      refine congrArg firstOccur ?_
      apply List.filter_congr
      intro a _
      by_cases h3 : a ∈ ids m <;> by_cases h4 : a = y.id <;> simp [h3, h4]

/-- One step of the per-id sequential maximum: starting from nothing, a
matching candidate replaces the held one only on a strictly higher score. -/
def seqPickStep (i : ℤ) (acc : Option SearchItem) (y : SearchItem) : Option SearchItem :=
  if y.id = i then
    match acc with
    | none => some y
    | some a => if a.score < y.score then some y else some a
  else acc

/-- The entry kept for id `i` after walking the whole input sequence. -/
def seqPick (l : List SearchItem) (i : ℤ) : Option SearchItem :=
  l.foldl (seqPickStep i) none

theorem dictReplace_find? (y : SearchItem) (i : ℤ) :
    ∀ (m : List SearchItem),
      (dictReplace m y).find? (fun x => x.id = i) =
        if y.id = i then
          Option.map (fun a => if a.score < y.score then y else a)
            (m.find? (fun x => x.id = i))
        else m.find? (fun x => x.id = i) := by
  intro m
  induction m with
  | nil => by_cases hyi : y.id = i <;> simp [dictReplace, hyi]
  | cons x xs ih =>
    rw [dictReplace]
    by_cases hxy : x.id = y.id
    · by_cases hyi : y.id = i
      · have hxi : x.id = i := hxy.trans hyi
        by_cases hs : x.score < y.score <;>
          simp [hxy, hs, hyi, hxi, List.find?_cons]
      · have hxi : ¬ x.id = i := fun h => hyi (hxy.symm.trans h)
        by_cases hs : x.score < y.score <;>
          simp [hxy, hs, hyi, hxi, List.find?_cons, ih]
    · rw [if_neg hxy]
      by_cases hxi : x.id = i
      · have hyi : ¬ y.id = i := fun h => hxy (hxi.trans h.symm)
        rw [if_neg hyi]
        simp [List.find?_cons, hxi]
      · simp [List.find?_cons, hxi, ih]

theorem mergeInsert_find? (m : List SearchItem) (y : SearchItem) (i : ℤ) :
    (mergeInsert m y).find? (fun x => x.id = i) =
      seqPickStep i (m.find? (fun x => x.id = i)) y := by
  rw [mergeInsert]
  by_cases hp : (m.find? (fun x => x.id = y.id)).isSome = true
  · rw [if_pos hp, dictReplace_find?, seqPickStep.eq_def]
    by_cases hyi : y.id = i
    · rw [if_pos hyi, if_pos hyi]
      rcases hfi : m.find? (fun x => x.id = i) with _ | a
      · rw [hyi] at hp
        rw [hfi] at hp
        simp at hp
      · rw [hfi]
        by_cases hs : a.score < y.score <;> simp [hs]
    · rw [if_neg hyi, if_neg hyi]
  · rw [if_neg hp, seqPickStep.eq_def]
    have hnone : m.find? (fun x => x.id = y.id) = none := by
      rcases h : m.find? (fun x => x.id = y.id) with _ | a
      · exact h
      · rw [h] at hp; simp at hp
    rw [List.find?_append]
    by_cases hyi : y.id = i
    · have h0 : m.find? (fun x => x.id = i) = none := hyi ▸ hnone
      rw [h0, if_pos hyi]
      simp [List.find?_cons, hyi]
    · rw [if_neg hyi]
      simp [List.find?_cons, hyi]

theorem mergeItems_find? (l : List SearchItem) (i : ℤ) :
    (mergeItems l).find? (fun x => x.id = i) = seqPick l i := by
  have h : ∀ (l' : List SearchItem) (m : List SearchItem),
      (l'.foldl mergeInsert m).find? (fun x => x.id = i)
        = l'.foldl (seqPickStep i) (m.find? (fun x => x.id = i)) := by
    intro l'
    induction l' with
    | nil => intro m; rfl
    | cons y l' ih =>
      intro m
      rw [List.foldl_cons, List.foldl_cons, ih, mergeInsert_find?]
  have h0 : (([] : List SearchItem).find? (fun x => x.id = i)) = none := rfl
  rw [mergeItems, h l [], h0, seqPick]

theorem seqPick_append (l : List SearchItem) (y : SearchItem) (i : ℤ) :
    seqPick (l ++ [y]) i = seqPickStep i (seqPick l i) y := by
  simp [seqPick, List.foldl_append]

theorem seqPick_none {i : ℤ} :
    ∀ {l : List SearchItem}, seqPick l i = none → ∀ y ∈ l, ¬ y.id = i := by
  intro l
  induction l using List.reverseRecOn with
  | nil => intro _ y hy; simp at hy
  | append_singleton l z ih =>
    intro h y hy
    rw [seqPick_append, seqPickStep.eq_def] at h
    by_cases hzi : z.id = i
    · rw [if_pos hzi] at h
      rcases hp : seqPick l i with _ | a
      · rw [hp] at h; simp at h
      · rw [hp] at h
        by_cases hs : a.score < z.score <;> simp [hs] at h
    · rw [if_neg hzi] at h
      rcases List.mem_append.mp hy with hy | hy
      · exact ih h y hy
      · simp at hy
        subst hy
        exact hzi

theorem seqPick_some {i : ℤ} :
    ∀ {l : List SearchItem} {x : SearchItem}, seqPick l i = some x →
      x.id = i ∧ ∃ l₁ l₂, l = l₁ ++ x :: l₂ ∧
        (∀ y ∈ l₁, y.id = i → y.score < x.score) ∧
        (∀ y ∈ l₂, y.id = i → y.score ≤ x.score) := by
  intro l
  induction l using List.reverseRecOn with
  | nil => intro x h; simp [seqPick] at h
  | append_singleton l z ih =>
    intro x h
    rw [seqPick_append, seqPickStep.eq_def] at h
    by_cases hzi : z.id = i
    · rw [if_pos hzi] at h
      rcases hp : seqPick l i with _ | a
      · rw [hp] at h
        injection h with h
        subst h
        refine ⟨hzi, l, [], by simp, ?_, by simp⟩
        intro y hy hyi
        exact absurd hyi (seqPick_none hp y hy)
      · rw [hp] at h
        by_cases hs : a.score < z.score
        · simp only [hs, if_true] at h
          injection h with h
          subst h
          obtain ⟨haid, m₁, m₂, hsplit, h₁, h₂⟩ := ih hp
          refine ⟨hzi, l, [], by simp, ?_, by simp⟩
          intro y hy hyi
          rw [hsplit] at hy
          rcases List.mem_append.mp hy with hy1 | hy2
          · exact lt_trans (h₁ y hy1 hyi) hs
          · rcases List.mem_cons.mp hy2 with rfl | hy3
            · exact hs
            · exact lt_of_le_of_lt (h₂ y hy3 hyi) hs
        · simp only [hs, if_false] at h
          injection h with h
          subst h
          obtain ⟨haid, m₁, m₂, hsplit, h₁, h₂⟩ := ih hp
          refine ⟨haid, m₁, m₂ ++ [z], by rw [hsplit]; simp, h₁, ?_⟩
          intro y hy hyi
          rcases List.mem_append.mp hy with hy1 | hy2
          · exact h₂ y hy1 hyi
          · simp at hy2
            subst hy2
            exact le_of_not_lt hs
    · rw [if_neg hzi] at h
      obtain ⟨hxid, m₁, m₂, hsplit, h₁, h₂⟩ := ih h
      refine ⟨hxid, m₁, m₂ ++ [z], by rw [hsplit]; simp, h₁, ?_⟩
      intro y hy hyi
      rcases List.mem_append.mp hy with hy1 | hy2
      · exact h₂ y hy1 hyi
      · simp at hy2
        subst hy2
        exact absurd hyi hzi

theorem find?_eq_of_mem_nodup {m : List SearchItem} {x : SearchItem}
    (hnd : (ids m).Nodup) (hx : x ∈ m) :
    m.find? (fun z => z.id = x.id) = some x := by
  induction m with
  | nil => simp at hx
  | cons h t ih =>
    have hnd' : ¬ h.id ∈ ids t ∧ (ids t).Nodup := by
      have : ids (h :: t) = h.id :: ids t := rfl
      rw [this] at hnd
      exact List.nodup_cons.mp hnd
    rcases List.mem_cons.mp hx with rfl | hx'
    · exact List.find?_cons_of_pos _ (by simp)
    · have hne : ¬ h.id = x.id := by
        intro he
        exact hnd'.1 (he ▸ (by simp [ids]; exact ⟨x, hx', rfl⟩))
      rw [List.find?_cons_of_neg _ (by simpa using hne)]
      exact ih hnd'.2 hx'

theorem dictReplace_noop {y a : SearchItem} :
    ∀ {m : List SearchItem}, m.find? (fun x => x.id = y.id) = some a →
      ¬ a.score < y.score → dictReplace m y = m := by
  intro m
  induction m with
  | nil => intro _ _; rfl
  | cons x xs ih =>
    intro hf hs
    rw [dictReplace]
    by_cases hxy : x.id = y.id
    · rw [List.find?_cons_of_pos _ (by simpa using hxy)] at hf
      injection hf with hf
      subst hf
      rw [if_pos hxy, if_neg hs]
    · rw [List.find?_cons_of_neg _ (by simpa using hxy)] at hf
      rw [if_neg hxy, ih hf hs]

theorem mergeInsert_noop {m : List SearchItem} {y a : SearchItem}
    (hf : m.find? (fun x => x.id = y.id) = some a) (hs : ¬ a.score < y.score) :
    mergeInsert m y = m := by
  rw [mergeInsert, if_pos (by rw [hf]; rfl)]
  exact dictReplace_noop hf hs

theorem foldl_mergeInsert_fixed {m : List SearchItem} :
    ∀ {l : List SearchItem}, (∀ y ∈ l, mergeInsert m y = m) →
      l.foldl mergeInsert m = m := by
  intro l
  induction l with
  | nil => intro _; rfl
  | cons y l ih =>
    intro h
    rw [List.foldl_cons, h y (List.mem_cons_self _ _)]
    exact ih (fun z hz => h z (List.mem_cons_of_mem _ hz))

theorem mergeItems_idem (l : List SearchItem) :
    mergeItems (l ++ l) = mergeItems l := by
  rw [mergeItems, List.foldl_append]
  have hfold : l.foldl mergeInsert [] = mergeItems l := rfl
  rw [hfold]
  apply foldl_mergeInsert_fixed
  intro y hy
  have hsome : ∃ a, seqPick l y.id = some a := by
    rcases h : seqPick l y.id with _ | a
    · exact absurd rfl (seqPick_none h y hy)
    · exact ⟨a, rfl⟩
  obtain ⟨a, ha⟩ := hsome
  have hfind : (mergeItems l).find? (fun x => x.id = y.id) = some a := by
    rw [mergeItems_find?, ha]
  obtain ⟨haid, m₁, m₂, hsplit, h₁, h₂⟩ := seqPick_some ha
  have hyle : ¬ a.score < y.score := by
    have hy' := hy
    rw [hsplit] at hy'
    rcases List.mem_append.mp hy' with hy1 | hy2
    · exact not_lt.mpr (le_of_lt (h₁ y hy1 rfl))
    · rcases List.mem_cons.mp hy2 with rfl | hy3
      · exact lt_irrefl _
      · exact not_lt.mpr (h₂ y hy3 rfl)
  exact mergeInsert_noop hfind hyle

/-- C8 -- (functional_correctness): in the merged candidate set, each id
appears exactly once; the output order is the insertion order of each id's
first occurrence in the walked input (keyword results before vector results
at the call site), described by first-occurrence deduplication of the id
sequence — not a sort by score; each kept entry occurs in the input at a
position where every earlier same-id candidate has a strictly lower score
(ties keep the first-seen copy) and every later same-id candidate has a
lower-or-equal score (the kept entry has the maximal score); and merging a
list with itself yields the same unique set. -/
theorem mergeItems_spec (l : List SearchItem) :
    ((mergeItems l).map (fun x => x.id)).Nodup ∧
    (mergeItems l).map (fun x => x.id) = firstOccur (l.map (fun x => x.id)) ∧
    (∀ x ∈ mergeItems l, ∃ l₁ l₂, l = l₁ ++ x :: l₂ ∧
        (∀ y ∈ l₁, y.id = x.id → y.score < x.score) ∧
        (∀ y ∈ l₂, y.id = x.id → y.score ≤ x.score)) ∧
    mergeItems (l ++ l) = mergeItems l := by
  have horder : (mergeItems l).map (fun x => x.id) = firstOccur (l.map (fun x => x.id)) := by
    have h := mergeFold_ids l []
    simpa [mergeItems, ids] using h
  have hnd : ((mergeItems l).map (fun x => x.id)).Nodup := by
    rw [horder]; exact firstOccur_nodup _
  refine ⟨hnd, horder, ?_, mergeItems_idem l⟩
  intro x hx
  have hfind := find?_eq_of_mem_nodup (m := mergeItems l) hnd hx
  rw [mergeItems_find?] at hfind
  obtain ⟨hxid, l₁, l₂, hsplit, h₁, h₂⟩ := seqPick_some hfind
  exact ⟨l₁, l₂, hsplit, h₁, h₂⟩

/-- C1 counterexample --: a response whose (only) fenced code block parses
as the JSON array `[1]`, while the last complete top-level bracket span of
the cleaned text parses as the different array `[2]`: extraction returns
`[2]`, the bracket-span array, not the fenced block's array — because
`reversed(candidates)` puts the appended bracket-span candidate first. -/
theorem extract_fence_loses_to_bracket_span :
    _extract_json_array "```json\n[1]\n```\nfinal: [2]" = Except.ok [JVal.num 2]
    ∧ fenceFindall (stripThink ("```json\n[1]\n```\nfinal: [2]").toList)
        = ["[1]".toList]
    ∧ parsedArray ("[1]".toList) = some [JVal.num 1]
    ∧ lastSpan (stripThink ("```json\n[1]\n```\nfinal: [2]").toList)
        = some ("[2]".toList)
    ∧ JVal.num 2 ≠ JVal.num 1 := by
  refine ⟨by with_unfolding_all rfl, by with_unfolding_all rfl,
    by with_unfolding_all rfl, by with_unfolding_all rfl, fun h => ?_⟩
  injection h with h
  norm_num at h

/-- C1 amended --: the extraction's true priority order — first attempt the
whole text as a JSON array; then (after stripping reasoning blocks) attempt
the last complete top-level bracket span; and only then the fenced-block
captures, from last-found to first-found.  (The fenced blocks come after the
bracket span, not before, because the code tries `reversed(candidates)` where
the bracket span was appended last.) -/
theorem extract_json_array_priority (text : String) :
    _extract_json_array text =
      (match parsedArray text.toList with
       | some l => Except.ok l
       | none =>
         match ((lastSpan (stripThink text.toList)).toList
             ++ (fenceFindall (stripThink text.toList)).reverse).findSome? parsedArray with
         | some l => Except.ok l
         | none => Except.error "rerank response not JSON array") := by
  rw [_extract_json_array.eq_def]
  cases parsedArray text.toList with
  | some l => rfl
  | none =>
    show (match ((fenceFindall (stripThink text.toList)
        ++ (lastSpan (stripThink text.toList)).toList).reverse.findSome? parsedArray) with
      | some l => Except.ok l
      | none => Except.error "rerank response not JSON array") = _
    have harr : (fenceFindall (stripThink text.toList)
          ++ (lastSpan (stripThink text.toList)).toList).reverse
        = (lastSpan (stripThink text.toList)).toList
          ++ (fenceFindall (stripThink text.toList)).reverse := by
      rw [List.reverse_append]
      congr 1
      cases lastSpan (stripThink text.toList) <;> rfl
    rw [harr]

/-! ### Lemmas for the rerank batch validation (C3) -/

/-- A parsed rerank item that passes every check of the consumer loop: it is
an object carrying non-null `index`, `score` and `document` fields whose
`index` and `score` coerce to numbers (`str(document)` always succeeds). -/
def goodItem : JVal → Prop
  | JVal.obj fields =>
      (∃ iv i, denull (dictGet fields "index") = some iv ∧ pyInt iv = some i) ∧
      (∃ sv s, denull (dictGet fields "score") = some sv ∧ pyFloat sv = some s) ∧
      (∃ dv, denull (dictGet fields "document") = some dv)
  | _ => False

theorem itemize_ok_iff (it : JVal) : (∃ r, itemize it = Except.ok r) ↔ goodItem it := by
  cases it with
  | obj fields =>
    rcases h1 : denull (dictGet fields "index") with _ | iv
    · simp [itemize, goodItem, h1]
    · rcases h2 : denull (dictGet fields "score") with _ | sv
      · simp [itemize, goodItem, h1, h2]
      · rcases h3 : denull (dictGet fields "document") with _ | dv
        · simp [itemize, goodItem, h1, h2, h3]
        · rcases h4 : pyInt iv with _ | i
          · simp [itemize, goodItem, h1, h2, h3, h4]
          · rcases h5 : pyFloat sv with _ | s
            · simp [itemize, goodItem, h1, h2, h3, h4, h5]
            · simp [itemize, goodItem, h1, h2, h3, h4, h5]
  | null => simp [itemize, goodItem]
  | bool b => simp [itemize, goodItem]
  | num q => simp [itemize, goodItem]
  | str s => simp [itemize, goodItem]
  | arr l => simp [itemize, goodItem]

theorem processItems_error :
    ∀ {items : List JVal}, (∃ it ∈ items, ¬ goodItem it) →
      ∃ e, processItems items = Except.error e := by
  intro items
  induction items with
  | nil => rintro ⟨it, hmem, _⟩; simp at hmem
  | cons a rest ih =>
    rintro ⟨it, hmem, hbad⟩
    rcases ha : itemize a with e | r
    · exact ⟨e, by simp [processItems, ha]⟩
    · rcases List.mem_cons.mp hmem with rfl | hmem'
      · exact absurd ((itemize_ok_iff it).mp ⟨r, ha⟩) hbad
      · obtain ⟨e, he⟩ := ih ⟨it, hmem', hbad⟩
        exact ⟨e, by simp [processItems, ha, he, Except.map]⟩

theorem processItems_ok :
    ∀ {items : List JVal}, (∀ it ∈ items, goodItem it) →
      ∃ rs, processItems items = Except.ok rs ∧
        List.Forall₂ (fun it r => itemize it = Except.ok r) items rs := by
  intro items
  induction items with
  | nil => intro _; exact ⟨[], rfl, List.Forall₂.nil⟩
  | cons a rest ih =>
    intro h
    obtain ⟨r, hr⟩ := (itemize_ok_iff a).mpr (h a (List.mem_cons_self _ _))
    obtain ⟨rs, hrs, hall⟩ := ih (fun it hit => h it (List.mem_cons_of_mem _ hit))
    exact ⟨r :: rs, by simp [processItems, hr, hrs, Except.map], List.Forall₂.cons hr hall⟩

/-- C3 -- (error_handling): the remote rerank batch assembly fails as a
whole exactly when (a) extraction fails (the parse error propagates to the
caller), or (b) some parsed item is not a well-formed `{index, score,
document}` object with numeric-coercible `index`/`score` (one bad item
invalidates the entire batch, no partial results); otherwise it succeeds with
exactly one `RerankResult` per parsed item, in order. -/
theorem rerank_all_or_nothing (content : String) :
    (∀ e, _extract_json_array content = Except.error e →
        rerankFromContent content = Except.error e) ∧
    (∀ items, _extract_json_array content = Except.ok items →
      ((∃ it ∈ items, ¬ goodItem it) →
          ∃ e, rerankFromContent content = Except.error e) ∧
      ((∀ it ∈ items, goodItem it) →
          ∃ rs, rerankFromContent content = Except.ok rs ∧
            List.Forall₂ (fun it r => itemize it = Except.ok r) items rs)) := by
  constructor
  · intro e he
    simp [rerankFromContent, he]
  · intro items hitems
    constructor
    · intro hbad
      obtain ⟨e, he⟩ := processItems_error hbad
      exact ⟨e, by simp [rerankFromContent, hitems, he]⟩
    · intro hgood
      obtain ⟨rs, hrs, hall⟩ := processItems_ok hgood
      exact ⟨rs, by simp [rerankFromContent, hitems, hrs], hall⟩

/-- Witness for C3 at the spec's own test vector: a single well-formed item
yields exactly one result. -/
theorem rerank_all_or_nothing_witness :
    ∃ rs, rerankFromContent "[\x7b\"index\":0,\"score\":0.9,\"document\":\"a\"\x7d]"
        = Except.ok rs ∧
      List.Forall₂ (fun it r => itemize it = Except.ok r)
        [JVal.obj [("index", JVal.num 0), ("score", JVal.num (9/10)),
          ("document", JVal.str "a")]] rs := by
  refine ((rerank_all_or_nothing _).2
    [JVal.obj [("index", JVal.num 0), ("score", JVal.num (9/10)),
      ("document", JVal.str "a")]]
    (by with_unfolding_all rfl)).2 ?_
  intro it hit
  rw [List.mem_singleton] at hit
  subst hit
  refine ⟨⟨JVal.num 0, 0, by with_unfolding_all rfl, by with_unfolding_all rfl⟩,
    ⟨JVal.num (9/10), 9/10, by with_unfolding_all rfl, rfl⟩,
    ⟨JVal.str "a", by with_unfolding_all rfl⟩⟩

/-! ### Lemmas for the similarity kernel (C5) -/

theorem dotProd_cons (a b : ℝ) (as bs : List ℝ) :
    dotProd (a :: as) (b :: bs) = a * b + dotProd as bs := rfl

theorem normSq_nonneg (v : List ℝ) : 0 ≤ normSq v := by
  induction v with
  | nil => simp [normSq, dotProd]
  | cons x xs ih =>
    rw [normSq, dotProd_cons]
    have : 0 ≤ x * x := mul_self_nonneg x
    rw [normSq] at ih
    linarith

/-- Cauchy-Schwarz for the (length-truncating) list dot product. -/
theorem dotProd_sq_le (a : List ℝ) : ∀ (b : List ℝ),
    (dotProd a b) ^ 2 ≤ normSq a * normSq b := by
  induction a with
  | nil =>
    intro b
    have h1 : dotProd ([] : List ℝ) b = 0 := by cases b <;> rfl
    have h2 : normSq ([] : List ℝ) = 0 := rfl
    rw [h1, h2]
    simp
  | cons x xs ih =>
    intro b
    cases b with
    | nil =>
      have h1 : dotProd (x :: xs) ([] : List ℝ) = 0 := rfl
      rw [h1]
      have := mul_nonneg (normSq_nonneg (x :: xs)) (normSq_nonneg ([] : List ℝ))
      simpa using this
    | cons y ys =>
      rw [dotProd_cons]
      have hxs : normSq (x :: xs) = x * x + normSq xs := rfl
      have hys : normSq (y :: ys) = y * y + normSq ys := rfl
      rw [hxs, hys]
      have ihb := ih ys
      have hna := normSq_nonneg xs
      have hnb := normSq_nonneg ys
      rcases eq_or_lt_of_le hna with hna0 | hnaPos
      · have hd0 : dotProd xs ys = 0 := by nlinarith [sq_nonneg (dotProd xs ys)]
        rw [hd0]
        nlinarith [mul_nonneg (mul_self_nonneg x) hnb,
          mul_nonneg (mul_self_nonneg y) hna, mul_nonneg hna hnb]
      · have hkey : 0 ≤ (normSq xs * normSq ys - dotProd xs ys ^ 2)
            * (normSq xs + x * x) :=
          mul_nonneg (by linarith) (by nlinarith [mul_self_nonneg x])
        nlinarith [hkey, sq_nonneg (normSq xs * y - dotProd xs ys * x), hnaPos]

theorem div_bounds_of_sq_le {d D : ℝ} (hD : 0 < D) (h : d ^ 2 ≤ D ^ 2) :
    -1 ≤ d / D ∧ d / D ≤ 1 := by
  have hdle : d ≤ D := by nlinarith [sq_nonneg (d - D), sq_nonneg (d + D)]
  have hdge : -D ≤ d := by nlinarith [sq_nonneg (d - D), sq_nonneg (d + D)]
  constructor
  · rw [neg_le, ← neg_div]
    exact (div_le_one hD).mpr (by linarith)
  · exact (div_le_one hD).mpr hdle

/-- C5 -- (safety): both cosine kernels are total, always return a value in
`[-1, 1]`, and return exactly `0` when either vector is empty, the lengths
differ, or either norm is zero — in the remaining case both norms are
strictly positive, so the division is never by zero (and the model functions,
being total Lean functions, never raise). -/
theorem cosine_contract (a b : List ℝ) :
    (-1 ≤ _cosine_sim a b ∧ _cosine_sim a b ≤ 1) ∧
    (-1 ≤ _cosine_similarity a b ∧ _cosine_similarity a b ≤ 1) ∧
    ((a = [] ∨ b = [] ∨ a.length ≠ b.length ∨ normSq a = 0 ∨ normSq b = 0) →
      _cosine_sim a b = 0 ∧ _cosine_similarity a b = 0) := by
  classical
  by_cases hdeg : a = [] ∨ b = [] ∨ a.length ≠ b.length ∨ normSq a = 0 ∨ normSq b = 0
  · have hsim : _cosine_sim a b = 0 := by
      rw [_cosine_sim]
      rcases hdeg with h | h | h | h | h
      · rw [if_pos (Or.inl (by simp [h]))]
      · rw [if_pos (Or.inr (by simp [h]))]
      · by_cases he : a.isEmpty ∨ b.isEmpty
        · rw [if_pos he]
        · rw [if_neg he, if_pos h]
      · by_cases he : a.isEmpty ∨ b.isEmpty
        · rw [if_pos he]
        · rw [if_neg he]
          by_cases hl : a.length ≠ b.length
          · rw [if_pos hl]
          · rw [if_neg hl, if_pos (Or.inl h)]
      · by_cases he : a.isEmpty ∨ b.isEmpty
        · rw [if_pos he]
        · rw [if_neg he]
          by_cases hl : a.length ≠ b.length
          · rw [if_pos hl]
          · rw [if_neg hl, if_pos (Or.inr h)]
    have hsim2 : _cosine_similarity a b = 0 := by
      rw [_cosine_similarity]
      rcases hdeg with h | h | h | h | h
      · rw [if_pos (Or.inl (by simp [h]))]
      · rw [if_pos (Or.inr (Or.inl (by simp [h])))]
      · rw [if_pos (Or.inr (Or.inr h))]
      · by_cases hg : a.isEmpty ∨ b.isEmpty ∨ a.length ≠ b.length
        · rw [if_pos hg]
        · rw [if_neg hg]
          simp only []
          rw [if_pos (Or.inl ((Real.sqrt_eq_zero (normSq_nonneg a)).mpr h))]
      · by_cases hg : a.isEmpty ∨ b.isEmpty ∨ a.length ≠ b.length
        · rw [if_pos hg]
        · rw [if_neg hg]
          simp only []
          rw [if_pos (Or.inr ((Real.sqrt_eq_zero (normSq_nonneg b)).mpr h))]
    rw [hsim, hsim2]
    refine ⟨⟨by norm_num, by norm_num⟩, ⟨by norm_num, by norm_num⟩, fun _ => ⟨rfl, rfl⟩⟩
  · push_neg at hdeg
    obtain ⟨ha, hb, hlen, hna, hnb⟩ := hdeg
    have hnaPos : 0 < normSq a := lt_of_le_of_ne (normSq_nonneg a) (Ne.symm hna)
    have hnbPos : 0 < normSq b := lt_of_le_of_ne (normSq_nonneg b) (Ne.symm hnb)
    have hD : 0 < Real.sqrt (normSq a) * Real.sqrt (normSq b) :=
      mul_pos (Real.sqrt_pos.mpr hnaPos) (Real.sqrt_pos.mpr hnbPos)
    have hD2 : (Real.sqrt (normSq a) * Real.sqrt (normSq b)) ^ 2
        = normSq a * normSq b := by
      rw [mul_pow, Real.sq_sqrt (normSq_nonneg a), Real.sq_sqrt (normSq_nonneg b)]
    have hbounds := @div_bounds_of_sq_le (dotProd a b)
      (Real.sqrt (normSq a) * Real.sqrt (normSq b)) hD
      (by rw [hD2]; exact dotProd_sq_le a b)
    have hsim : _cosine_sim a b
        = dotProd a b / (Real.sqrt (normSq a) * Real.sqrt (normSq b)) := by
      rw [_cosine_sim, if_neg (by simp [ha, hb]), if_neg (by simpa using hlen),
        if_neg (by simp [hna, hnb])]
    have hsim2 : _cosine_similarity a b
        = dotProd a b / (Real.sqrt (normSq a) * Real.sqrt (normSq b)) := by
      rw [_cosine_similarity, if_neg (by simp [ha, hb, hlen])]
      simp only []
      rw [if_neg (by
        push_neg
        exact ⟨fun h => hna ((Real.sqrt_eq_zero (normSq_nonneg a)).mp h),
          fun h => hnb ((Real.sqrt_eq_zero (normSq_nonneg b)).mp h)⟩)]
    rw [hsim, hsim2]
    exact ⟨hbounds, hbounds, fun hcontra => by
      rcases hcontra with h | h | h | h | h
      · exact absurd h ha
      · exact absurd h hb
      · exact absurd hlen h
      · exact absurd h hna
      · exact absurd h hnb⟩

/-- Witness for C5 at concrete degenerate and mismatched inputs. -/
theorem cosine_contract_witness :
    _cosine_sim [] [] = 0 ∧ _cosine_similarity [] [] = 0 ∧
    _cosine_sim [1] [1, 2] = 0 ∧ _cosine_similarity [1] [1, 2] = 0 := by
  refine ⟨((cosine_contract [] []).2.2 (Or.inl rfl)).1,
    ((cosine_contract [] []).2.2 (Or.inl rfl)).2,
    ((cosine_contract [1] [1, 2]).2.2 (Or.inr (Or.inr (Or.inl (by simp))))).1,
    ((cosine_contract [1] [1, 2]).2.2 (Or.inr (Or.inr (Or.inl (by simp))))).2⟩

/-! ### Lemmas for the MMR selector (C6, C7, C10) -/

/-- The literal fold body of the argmax loop. -/
noncomputable def pickStep (f : ℕ → ℝ) (b : Option ℕ × ℝ) (i : ℕ) : Option ℕ × ℝ :=
  if b.2 < f i then (some i, f i) else b

theorem pickBest_eq_foldl (f : ℕ → ℝ) (l : List ℕ) :
    pickBest f l = l.foldl (pickStep f) (none, -1000000000) := by
  rw [pickBest]
  rfl

/-- Fold invariant of the argmax loop: every visited score is bounded by the
final best value, the accumulator never decreases, and the result is either
the initial accumulator or `(some b, f b)` for a visited `b`. -/
theorem pickStep_invariant (f : ℕ → ℝ) :
    ∀ (l : List ℕ) (o : Option ℕ) (v : ℝ),
      (∀ i ∈ l, f i ≤ (l.foldl (pickStep f) (o, v)).2) ∧
      v ≤ (l.foldl (pickStep f) (o, v)).2 ∧
      (l.foldl (pickStep f) (o, v) = (o, v) ∨
        ∃ b ∈ l, l.foldl (pickStep f) (o, v) = (some b, f b)) := by
  intro l
  induction l with
  | nil => intro o v; exact ⟨by simp, le_refl _, Or.inl rfl⟩
  | cons x xs ih =>
    intro o v
    rw [List.foldl_cons]
    by_cases hvx : v < f x
    · have hstep : pickStep f (o, v) x = (some x, f x) := by
        rw [pickStep, if_pos hvx]
      rw [hstep]
      obtain ⟨ihb, ihv, ihcase⟩ := ih (some x) (f x)
      refine ⟨?_, le_of_lt (lt_of_lt_of_le hvx ihv), ?_⟩
      · intro i hi
        rcases List.mem_cons.mp hi with rfl | hi'
        · exact ihv
        · exact ihb i hi'
      · rcases ihcase with heq | ⟨b, hb, heq⟩
        · exact Or.inr ⟨x, List.mem_cons_self _ _, heq⟩
        · exact Or.inr ⟨b, List.mem_cons_of_mem _ hb, heq⟩
    · have hstep : pickStep f (o, v) x = (o, v) := by
        rw [pickStep, if_neg hvx]
      rw [hstep]
      obtain ⟨ihb, ihv, ihcase⟩ := ih o v
      refine ⟨?_, ihv, ?_⟩
      · intro i hi
        rcases List.mem_cons.mp hi with rfl | hi'
        · exact le_trans (le_of_not_lt hvx) ihv
        · exact ihb i hi'
      · rcases ihcase with heq | ⟨b, hb, heq⟩
        · exact Or.inl heq
        · exact Or.inr ⟨b, List.mem_cons_of_mem _ hb, heq⟩

/-- When the argmax loop returns an index, it is a member attaining the
maximum of the visited scores. -/
theorem pickBest_bound {f : ℕ → ℝ} {l : List ℕ} {b : ℕ} {s : ℝ}
    (h : pickBest f l = (some b, s)) :
    b ∈ l ∧ s = f b ∧ ∀ i ∈ l, f i ≤ f b := by
  have hinv := pickStep_invariant f l none (-1000000000)
  rw [pickBest_eq_foldl] at h
  obtain ⟨hb, _, hcase⟩ := hinv
  rcases hcase with heq | ⟨b', hb', heq⟩
  · rw [heq] at h
    exact absurd (congrArg Prod.fst h) (by simp)
  · rw [heq] at h hb
    have h1 : b' = b := by
      have := congrArg Prod.fst h
      simpa using this
    have h2 : f b' = s := congrArg Prod.snd h
    subst h1
    exact ⟨hb', h2.symm, hb⟩

/-- With an ascending candidate list (CPython set iteration order), the
returned index is the first maximum: every tie has a larger index. -/
theorem pickStep_first_max (f : ℕ → ℝ) :
    ∀ (l : List ℕ) (o : Option ℕ) (v : ℝ), l.Pairwise (· < ·) →
      (l.foldl (pickStep f) (o, v) = (o, v) ∧ ∀ i ∈ l, f i ≤ v) ∨
      (∃ b ∈ l, l.foldl (pickStep f) (o, v) = (some b, f b) ∧ v < f b ∧
        (∀ i ∈ l, f i ≤ f b) ∧ (∀ i ∈ l, f i = f b → b ≤ i)) := by
  intro l
  induction l with
  | nil => intro o v _; exact Or.inl ⟨rfl, by simp⟩
  | cons x xs ih =>
    intro o v hsort
    have hx : ∀ i ∈ xs, x < i := (List.pairwise_cons.mp hsort).1
    have hsort' : xs.Pairwise (· < ·) := (List.pairwise_cons.mp hsort).2
    rw [List.foldl_cons]
    by_cases hvx : v < f x
    · have hstep : pickStep f (o, v) x = (some x, f x) := by
        rw [pickStep, if_pos hvx]
      rw [hstep]
      rcases ih (some x) (f x) hsort' with ⟨heq, hbound⟩ | ⟨b, hb, heq, hlt, hbound, hties⟩
      · refine Or.inr ⟨x, List.mem_cons_self _ _, heq, hvx, ?_, ?_⟩
        · intro i hi
          rcases List.mem_cons.mp hi with rfl | hi'
          · exact le_refl _
          · exact hbound i hi'
        · intro i hi _
          rcases List.mem_cons.mp hi with rfl | hi'
          · exact le_refl _
          · exact le_of_lt (hx i hi')
      · refine Or.inr ⟨b, List.mem_cons_of_mem _ hb, heq,
          lt_trans hvx hlt, ?_, ?_⟩
        · intro i hi
          rcases List.mem_cons.mp hi with rfl | hi'
          · exact le_of_lt hlt
          · exact hbound i hi'
        · intro i hi hfi
          rcases List.mem_cons.mp hi with rfl | hi'
          · exact absurd hfi (ne_of_lt hlt)
          · exact hties i hi' hfi
    · have hstep : pickStep f (o, v) x = (o, v) := by
        rw [pickStep, if_neg hvx]
      rw [hstep]
      have hfx : f x ≤ v := le_of_not_lt hvx
      rcases ih o v hsort' with ⟨heq, hbound⟩ | ⟨b, hb, heq, hlt, hbound, hties⟩
      · refine Or.inl ⟨heq, ?_⟩
        intro i hi
        rcases List.mem_cons.mp hi with rfl | hi'
        · exact hfx
        · exact hbound i hi'
      · refine Or.inr ⟨b, List.mem_cons_of_mem _ hb, heq, hlt, ?_, ?_⟩
        · intro i hi
          rcases List.mem_cons.mp hi with rfl | hi'
          · exact le_of_lt (lt_of_le_of_lt hfx hlt)
          · exact hbound i hi'
        · intro i hi hfi
          rcases List.mem_cons.mp hi with rfl | hi'
          · exact absurd hfi (ne_of_lt (lt_of_le_of_lt hfx hlt))
          · exact hties i hi' hfi

/-- If some candidate beats the `-1e9` sentinel, the loop selects the first
maximum of the list. -/
theorem pickBest_first_max {f : ℕ → ℝ} {l : List ℕ}
    (hsort : l.Pairwise (· < ·)) (hex : ∃ i ∈ l, -1000000000 < f i) :
    ∃ b ∈ l, pickBest f l = (some b, f b) ∧
      (∀ i ∈ l, f i ≤ f b) ∧ (∀ i ∈ l, f i = f b → b ≤ i) := by
  rw [pickBest_eq_foldl]
  rcases pickStep_first_max f l none (-1000000000) hsort with ⟨_, hbound⟩ | h
  · obtain ⟨i, hi, hgt⟩ := hex
    exact absurd (hbound i hi) (not_le.mpr hgt)
  · obtain ⟨b, hb, heq, _, hbound, hties⟩ := h
    exact ⟨b, hb, heq, hbound, hties⟩

theorem mmrLoop_mem (rel : ℕ → ℝ) (simm : ℕ → ℕ → ℝ) (lam : ℝ) :
    ∀ (fuel : ℕ) (rem sel : List ℕ) (p : ℕ × ℝ),
      p ∈ mmrLoop rel simm lam fuel rem sel → p.1 ∈ rem := by
  intro fuel
  induction fuel with
  | zero => intro rem sel p hp; simp [mmrLoop] at hp
  | succ fuel ih =>
    intro rem sel p hp
    rw [mmrLoop] at hp
    rcases hpb : pickBest (mmrScore rel simm lam sel) rem with ⟨_ | b, s⟩
    · rw [hpb] at hp; simp at hp
    · rw [hpb] at hp
      simp only [] at hp
      rcases List.mem_cons.mp hp with rfl | hp'
      · exact (pickBest_bound hpb).1
      · exact List.mem_of_mem_erase (ih _ _ p hp')

theorem mmrLoop_nodup (rel : ℕ → ℝ) (simm : ℕ → ℕ → ℝ) (lam : ℝ) :
    ∀ (fuel : ℕ) (rem sel : List ℕ), rem.Nodup →
      ((mmrLoop rel simm lam fuel rem sel).map Prod.fst).Nodup := by
  intro fuel
  induction fuel with
  | zero => intro rem sel _; simp [mmrLoop]
  | succ fuel ih =>
    intro rem sel hnd
    rw [mmrLoop]
    rcases hpb : pickBest (mmrScore rel simm lam sel) rem with ⟨_ | b, s⟩
    · simp
    · simp only [List.map_cons]
      refine List.nodup_cons.mpr ⟨?_, ih _ _ (hnd.erase b)⟩
      intro hmem
      rw [List.mem_map] at hmem
      obtain ⟨p, hp, hfst⟩ := hmem
      have hpm : p.1 ∈ rem.erase b := mmrLoop_mem rel simm lam fuel _ _ p hp
      rw [hfst] at hpm
      exact (List.Nodup.not_mem_erase hnd) hpm

theorem mmrLoop_length (rel : ℕ → ℝ) (simm : ℕ → ℕ → ℝ) (lam : ℝ) :
    ∀ (fuel : ℕ) (rem sel : List ℕ),
      (mmrLoop rel simm lam fuel rem sel).length ≤ fuel := by
  intro fuel
  induction fuel with
  | zero => intro rem sel; simp [mmrLoop]
  | succ fuel ih =>
    intro rem sel
    rw [mmrLoop]
    rcases pickBest (mmrScore rel simm lam sel) rem with ⟨_ | b, s⟩
    · simp
    · simpa using Nat.succ_le_succ (ih _ _)

/-- C7 -- (invariants): a successful MMR run never selects the same
candidate index twice, returns at most `min(k, n)` items, and returns
nothing when `k ≤ 0`. -/
theorem mmr_rank_invariants (q : List ℝ) (dv : List (List ℝ)) (docs : List String)
    (k : ℤ) (lam : ℝ) (rs : List RerankResultR)
    (h : _mmr_rank q dv docs k lam = Except.ok rs) :
    (rs.map (fun r => r.index)).Nodup ∧
    rs.length ≤ min k.toNat dv.length ∧
    (k ≤ 0 → rs = []) := by
  rw [_mmr_rank] at h
  by_cases h1 : dv.length ≠ docs.length
  · rw [if_pos h1] at h
    exact absurd h (by simp)
  · rw [if_neg h1] at h
    by_cases h2 : k ≤ 0
    · rw [if_pos h2] at h
      injection h with h
      subst h
      exact ⟨by simp, by simp, fun _ => rfl⟩
    · rw [if_neg h2] at h
      injection h with h
      subst h
      refine ⟨?_, ?_, fun hk => absurd hk h2⟩
      · have hnd := mmrLoop_nodup (fun i => _cosine_sim q (dv.getD i []))
          (fun i j => _cosine_sim (dv.getD i []) (dv.getD j []))
          lam (min k.toNat dv.length) (List.range dv.length) []
          (List.nodup_range _)
        simpa [List.map_map, Function.comp] using hnd
      · have hlen := mmrLoop_length (fun i => _cosine_sim q (dv.getD i []))
          (fun i j => _cosine_sim (dv.getD i []) (dv.getD j []))
          lam (min k.toNat dv.length) (List.range dv.length) []
        simpa using hlen

/-- Witness for C7 at a concrete input with `k = 0`. -/
theorem mmr_rank_invariants_witness :
    (([] : List RerankResultR).map (fun r => r.index)).Nodup ∧
    ([] : List RerankResultR).length ≤ min (0 : ℤ).toNat ([[1], [2]] : List (List ℝ)).length ∧
    ((0 : ℤ) ≤ 0 → ([] : List RerankResultR) = []) :=
  mmr_rank_invariants [1] [[1], [2]] ["a", "b"] 0 (7/10) []
    (by with_unfolding_all rfl)

/-- Predicate for i ranking no later than j under pure relevance: strictly higher
relevance first, ties broken by input position. -/
def relBefore (rel : ℕ → ℝ) (i j : ℕ) : Prop :=
  rel j < rel i ∨ (rel i = rel j ∧ i ≤ j)

theorem relBefore_total (rel : ℕ → ℝ) (i j : ℕ) :
    relBefore rel i j ∨ relBefore rel j i := by
  rcases lt_trichotomy (rel i) (rel j) with h | h | h
  · exact Or.inr (Or.inl h)
  · rcases Nat.le_total i j with hij | hij
    · exact Or.inl (Or.inr ⟨h, hij⟩)
    · exact Or.inr (Or.inr ⟨h.symm, hij⟩)
  · exact Or.inl (Or.inl h)

theorem relBefore_trans (rel : ℕ → ℝ) {i j k : ℕ}
    (h1 : relBefore rel i j) (h2 : relBefore rel j k) : relBefore rel i k := by
  rcases h1 with h1 | ⟨h1e, h1le⟩ <;> rcases h2 with h2 | ⟨h2e, h2le⟩
  · exact Or.inl (lt_trans h2 h1)
  · exact Or.inl (h2e ▸ h1)
  · exact Or.inl (h1e ▸ h2)
  · exact Or.inr ⟨h1e.trans h2e, le_trans h1le h2le⟩

theorem relBefore_antisymm (rel : ℕ → ℝ) {i j : ℕ}
    (h1 : relBefore rel i j) (h2 : relBefore rel j i) : i = j := by
  rcases h1 with h1 | ⟨h1e, h1le⟩ <;> rcases h2 with h2 | ⟨h2e, h2le⟩
  · exact absurd h1 (not_lt.mpr (le_of_lt h2))
  · exact absurd h1 (not_lt.mpr (le_of_eq h2e.symm))
  · exact absurd h2 (not_lt.mpr (le_of_eq h1e.symm))
  · exact Nat.le_antisymm h1le h2le

open Classical in
/-- Stable insertion into a relevance-descending list. -/
noncomputable def insertDesc (rel : ℕ → ℝ) (i : ℕ) : List ℕ → List ℕ
  | [] => [i]
  | j :: js => if relBefore rel i j then i :: j :: js else j :: insertDesc rel i js

/-- Modelled from the spec: "sorting the candidates by descending relevance
`rel[i]`, with ties broken by position in the input order" — a stable
insertion sort of the candidate indices. -/
noncomputable def sortDesc (rel : ℕ → ℝ) (l : List ℕ) : List ℕ :=
  l.foldr (insertDesc rel) []

theorem insertDesc_perm (rel : ℕ → ℝ) (i : ℕ) :
    ∀ (l : List ℕ), (insertDesc rel i l).Perm (i :: l) := by
  intro l
  induction l with
  | nil => rfl
  | cons j js ih =>
    rw [insertDesc]
    by_cases h : relBefore rel i j
    · rw [if_pos h]
    · rw [if_neg h]
      exact List.Perm.trans (List.Perm.cons j ih) (List.Perm.swap i j js)

theorem sortDesc_perm (rel : ℕ → ℝ) :
    ∀ (l : List ℕ), (sortDesc rel l).Perm l := by
  intro l
  induction l with
  | nil => rfl
  | cons x xs ih =>
    have hstep : sortDesc rel (x :: xs) = insertDesc rel x (sortDesc rel xs) := rfl
    rw [hstep]
    exact List.Perm.trans (insertDesc_perm rel x _) (List.Perm.cons x ih)

theorem insertDesc_mem (rel : ℕ → ℝ) (i k : ℕ) (l : List ℕ) :
    k ∈ insertDesc rel i l ↔ k = i ∨ k ∈ l := by
  rw [(insertDesc_perm rel i l).mem_iff, List.mem_cons]

theorem insertDesc_sorted (rel : ℕ → ℝ) (i : ℕ) :
    ∀ (l : List ℕ), l.Pairwise (relBefore rel) →
      (insertDesc rel i l).Pairwise (relBefore rel) := by
  intro l
  induction l with
  | nil => intro _; simp [insertDesc, List.pairwise_cons]
  | cons j js ih =>
    intro hsort
    have hj : ∀ k ∈ js, relBefore rel j k := (List.pairwise_cons.mp hsort).1
    have hjs : js.Pairwise (relBefore rel) := (List.pairwise_cons.mp hsort).2
    rw [insertDesc]
    by_cases h : relBefore rel i j
    · rw [if_pos h]
      refine List.pairwise_cons.mpr ⟨?_, hsort⟩
      intro k hk
      rcases List.mem_cons.mp hk with rfl | hk'
      · exact h
      · exact relBefore_trans rel h (hj k hk')
    · rw [if_neg h]
      have hji : relBefore rel j i := (relBefore_total rel i j).resolve_left h
      refine List.pairwise_cons.mpr ⟨?_, ih hjs⟩
      intro k hk
      rcases (insertDesc_mem rel i k js).mp hk with rfl | hk'
      · exact hji
      · exact hj k hk'

theorem sortDesc_sorted (rel : ℕ → ℝ) :
    ∀ (l : List ℕ), (sortDesc rel l).Pairwise (relBefore rel) := by
  intro l
  induction l with
  | nil => simp [sortDesc]
  | cons x xs ih => exact insertDesc_sorted rel x _ ih

theorem sorted_perm_unique (rel : ℕ → ℝ) {l₁ l₂ : List ℕ} (hp : l₁.Perm l₂)
    (h₁ : l₁.Pairwise (relBefore rel)) (h₂ : l₂.Pairwise (relBefore rel)) :
    l₁ = l₂ :=
  haveI : IsAntisymm ℕ (relBefore rel) := ⟨fun _ _ => relBefore_antisymm rel⟩
  List.eq_of_perm_of_sorted hp h₁ h₂

open Classical in
/-- The λ = 1 specialization of the greedy loop: the selected set no longer
influences the score, so each round picks the first remaining maximum of
`f`. -/
noncomputable def greedy (f : ℕ → ℝ) : ℕ → List ℕ → List (ℕ × ℝ)
  | 0, _ => []
  | fuel + 1, rem =>
    match pickBest f rem with
    | (none, _) => []
    | (some b, s) => (b, s) :: greedy f fuel (rem.erase b)

theorem mmrScore_lam_one (rel : ℕ → ℝ) (simm : ℕ → ℕ → ℝ) (sel : List ℕ) (i : ℕ) :
    mmrScore rel simm 1 sel i = rel i := by
  rw [mmrScore]
  ring

theorem mmrLoop_lam_one (rel : ℕ → ℝ) (simm : ℕ → ℕ → ℝ) :
    ∀ (fuel : ℕ) (rem sel : List ℕ),
      mmrLoop rel simm 1 fuel rem sel = greedy rel fuel rem := by
  intro fuel
  induction fuel with
  | zero => intro rem sel; rfl
  | succ fuel ih =>
    intro rem sel
    rw [mmrLoop, greedy]
    have hf : mmrScore rel simm 1 sel = rel := funext (mmrScore_lam_one rel simm sel)
    rw [hf]
    rcases hpb : pickBest rel rem with ⟨_ | b, s⟩
    · rfl
    · show (b, s) :: mmrLoop rel simm 1 fuel (rem.erase b) (sel ++ [b])
        = (b, s) :: greedy rel fuel (rem.erase b)
      rw [ih]

theorem greedy_take_eq (f : ℕ → ℝ) :
    ∀ (fuel : ℕ) (rem : List ℕ), rem.Pairwise (· < ·) → (∀ i ∈ rem, -1 ≤ f i) →
      greedy f fuel rem = (greedy f rem.length rem).take fuel := by
  intro fuel
  induction fuel with
  | zero => intro rem _ _; simp [greedy]
  | succ fuel ih =>
    intro rem hsort hbound
    cases hrem : rem with
    | nil =>
      have h0 : pickBest f [] = (none, -1000000000) := rfl
      rw [greedy, h0]
      rfl
    | cons x xs =>
      rw [← hrem]
      have hxmem : x ∈ rem := hrem ▸ List.mem_cons_self _ _
      have hex : ∃ i ∈ rem, -1000000000 < f i :=
        ⟨x, hxmem, by linarith [hbound x hxmem]⟩
      obtain ⟨b, hb, hpb, _, _⟩ := pickBest_first_max hsort hex
      have hL : rem.length = (rem.erase b).length + 1 := by
        rw [List.length_erase_of_mem hb]
        have : 0 < rem.length := List.length_pos_of_mem hb
        omega
      have hsort' : (rem.erase b).Pairwise (· < ·) :=
        List.Pairwise.sublist (List.erase_sublist b rem) hsort
      have hbound' : ∀ i ∈ rem.erase b, -1 ≤ f i :=
        fun i hi => hbound i (List.mem_of_mem_erase hi)
      rw [greedy, hpb]
      show (b, f b) :: greedy f fuel (rem.erase b) = _
      rw [hL, greedy, hpb]
      show _ = ((b, f b) :: greedy f (rem.erase b).length (rem.erase b)).take (fuel + 1)
      rw [List.take_cons (by omega), ih _ hsort' hbound']
      simp

theorem greedy_full (f : ℕ → ℝ) :
    ∀ (n : ℕ) (l : List ℕ), l.length = n → l.Pairwise (· < ·) →
      (∀ i ∈ l, -1 ≤ f i) →
      ((greedy f n l).map Prod.fst).Perm l ∧
      ((greedy f n l).map Prod.fst).Pairwise (relBefore f) := by
  intro n
  induction n with
  | zero =>
    intro l hlen _ _
    rw [List.length_eq_zero.mp hlen]
    exact ⟨List.Perm.refl _, List.Pairwise.nil⟩
  | succ n ih =>
    intro l hlen hsort hbound
    have hne : l ≠ [] := by
      intro hnil
      rw [hnil] at hlen
      simp at hlen
    obtain ⟨x, hx⟩ := List.exists_mem_of_ne_nil l hne
    have hex : ∃ i ∈ l, -1000000000 < f i := ⟨x, hx, by linarith [hbound x hx]⟩
    obtain ⟨b, hb, hpb, hmax, hties⟩ := pickBest_first_max hsort hex
    have hL : (l.erase b).length = n := by
      rw [List.length_erase_of_mem hb, hlen]
      omega
    have hsort' : (l.erase b).Pairwise (· < ·) :=
      List.Pairwise.sublist (List.erase_sublist b l) hsort
    have hbound' : ∀ i ∈ l.erase b, -1 ≤ f i :=
      fun i hi => hbound i (List.mem_of_mem_erase hi)
    obtain ⟨ihperm, ihsort⟩ := ih (l.erase b) hL hsort' hbound'
    rw [greedy, hpb]
    show ((((b, f b) : ℕ × ℝ) :: greedy f n (l.erase b)).map Prod.fst).Perm l ∧ _
    rw [List.map_cons]
    constructor
    · exact List.Perm.trans (List.Perm.cons b ihperm) (List.perm_cons_erase hb).symm
    · refine List.pairwise_cons.mpr ⟨?_, ihsort⟩
      intro j hj
      have hjl : j ∈ l :=
        List.mem_of_mem_erase (ihperm.mem_iff.mp hj)
      rcases eq_or_lt_of_le (hmax j hjl) with heq | hlt
      · exact Or.inr ⟨heq.symm, hties j hjl heq⟩
      · exact Or.inl hlt

/-- C6 -- (refinement_equivalence): with `lambda = 1.0`, the MMR selection
order coincides with sorting the candidate indices by descending relevance
`rel[i] = cosine(query, vector[i])`, ties broken by input position, truncated
to the clamped `k`. -/
theorem mmr_lambda_one_is_relevance_sort (q : List ℝ) (dv : List (List ℝ))
    (docs : List String) (k : ℤ) (rs : List RerankResultR)
    (hlen : dv.length = docs.length)
    (h : _mmr_rank q dv docs k 1 = Except.ok rs) :
    rs.map (fun r => r.index)
      = (sortDesc (fun i => _cosine_sim q (dv.getD i []))
          (List.range dv.length)).take (min k.toNat dv.length) := by
  rw [_mmr_rank] at h
  rw [if_neg (by simp [hlen])] at h
  by_cases h2 : k ≤ 0
  · rw [if_pos h2] at h
    injection h with h
    subst h
    simp [Int.toNat_of_nonpos h2]
  · rw [if_neg h2] at h
    injection h with h
    subst h
    have hbound : ∀ i ∈ List.range dv.length,
        -1 ≤ _cosine_sim q (dv.getD i []) :=
      fun i _ => (cosine_contract q (dv.getD i [])).1.1
    rw [mmrLoop_lam_one]
    have hmm : ∀ (L : List (ℕ × ℝ)),
        (L.map (fun p => (⟨p.1, p.2, docs.getD p.1 ""⟩ : RerankResultR))).map
            (fun r => r.index)
          = L.map Prod.fst := by
      intro L
      simp [List.map_map, Function.comp]
    rw [hmm]
    rw [greedy_take_eq _ _ _ (List.pairwise_lt_range _) hbound]
    rw [List.map_take, List.length_range]
    congr 1
    obtain ⟨hperm, hsorted⟩ := greedy_full (fun i => _cosine_sim q (dv.getD i []))
      dv.length (List.range dv.length) (List.length_range _)
      (List.pairwise_lt_range _) hbound
    exact sorted_perm_unique _ (hperm.trans (sortDesc_perm _ _).symm) hsorted
      (sortDesc_sorted _ _)

/-- Witness for C6 at the empty instance (`k = 0`). -/
theorem mmr_lambda_one_witness :
    ([] : List RerankResultR).map (fun r => r.index)
      = (sortDesc (fun i => _cosine_sim [] (([] : List (List ℝ)).getD i []))
          (List.range ([] : List (List ℝ)).length)).take
          (min (0 : ℤ).toNat ([] : List (List ℝ)).length) :=
  mmr_lambda_one_is_relevance_sort [] [] [] 0 [] rfl (by with_unfolding_all rfl)

/-- C10 counterexample --: with the default `lambda = 0.7`, two candidates of
equal relevance but negative mutual cosine: the first selected score is
`0.42` and the second is `0.504` — the second result's score exceeds the
first's, so the full score sequence is not non-increasing.  (The diversity
penalty moves from `0` for an empty selected set to a negative maximum
cosine, which raises the second MMR score.) -/
theorem mmr_score_increases_example :
    _mmr_rank [1, 0, 0] [[3, 4, 0], [3, -4, 0]] ["a", "b"] 2 (7/10)
      = Except.ok [⟨0, 21/50, "a"⟩, ⟨1, 63/125, "b"⟩]
    ∧ (21/50 : ℝ) < 63/125 := by
  have hs25 : Real.sqrt 25 = 5 := by
    rw [show (25:ℝ) = 5^2 by norm_num, Real.sqrt_sq (by norm_num)]
  have hc1 : _cosine_sim [(1:ℝ),0,0] [3,4,0] = 3/5 := by
    rw [_cosine_sim, if_neg (by simp), if_neg (by simp),
      if_neg (by norm_num [normSq, dotProd])]
    norm_num [normSq, dotProd, Real.sqrt_one, hs25]
  have hc2 : _cosine_sim [(1:ℝ),0,0] [3,-4,0] = 3/5 := by
    rw [_cosine_sim, if_neg (by simp), if_neg (by simp),
      if_neg (by norm_num [normSq, dotProd])]
    norm_num [normSq, dotProd, Real.sqrt_one, hs25]
  have hc3 : _cosine_sim [(3:ℝ),-4,0] [3,4,0] = -7/25 := by
    rw [_cosine_sim, if_neg (by simp), if_neg (by simp),
      if_neg (by norm_num [normSq, dotProd])]
    norm_num [normSq, dotProd, hs25]
  constructor
  · rw [_mmr_rank, if_neg (by norm_num), if_neg (by norm_num)]
    norm_num [mmrLoop, pickBest, mmrScore, mmrPenalty, pyMaxList,
      List.range_succ, hc1, hc2, hc3]
  · norm_num

theorem pyMaxList_le_append (l : List ℝ) (x : ℝ) (h : l ≠ []) :
    pyMaxList l ≤ pyMaxList (l ++ [x]) := by
  cases l with
  | nil => exact absurd rfl h
  | cons y ys =>
    rw [pyMaxList, List.cons_append, pyMaxList, List.foldl_append]
    exact le_max_left _ _

theorem mmrPenalty_le_append (simm : ℕ → ℕ → ℝ) (sel : List ℕ) (b i : ℕ)
    (h : sel ≠ []) :
    mmrPenalty simm sel i ≤ mmrPenalty simm (sel ++ [b]) i := by
  cases sel with
  | nil => exact absurd rfl h
  | cons j js =>
    show pyMaxList ((j :: js).map (fun j => simm i j))
      ≤ pyMaxList (((j :: js) ++ [b]).map (fun j => simm i j))
    rw [List.map_append]
    exact pyMaxList_le_append _ _ (by simp)

theorem mmrScore_le_append (rel : ℕ → ℝ) (simm : ℕ → ℕ → ℝ) (lam : ℝ)
    (sel : List ℕ) (b i : ℕ) (hsel : sel ≠ []) (hlam : lam ≤ 1) :
    mmrScore rel simm lam (sel ++ [b]) i ≤ mmrScore rel simm lam sel i := by
  rw [mmrScore, mmrScore]
  have hpen := mmrPenalty_le_append simm sel b i hsel
  have h1 : (0:ℝ) ≤ 1 - lam := by linarith
  nlinarith [mul_le_mul_of_nonneg_left hpen h1]

theorem mmrLoop_chain (rel : ℕ → ℝ) (simm : ℕ → ℕ → ℝ) (lam : ℝ)
    (hlam : lam ≤ 1) :
    ∀ (fuel : ℕ) (rem sel : List ℕ), sel ≠ [] →
      List.Chain' (fun p q : ℕ × ℝ => q.2 ≤ p.2)
        (mmrLoop rel simm lam fuel rem sel) := by
  intro fuel
  induction fuel with
  | zero => intro rem sel _; simp [mmrLoop]
  | succ fuel ih =>
    intro rem sel hsel
    rw [mmrLoop]
    rcases hpb : pickBest (mmrScore rel simm lam sel) rem with ⟨_ | b, s⟩
    · simp
    · show List.Chain' _
        ((b, s) :: mmrLoop rel simm lam fuel (rem.erase b) (sel ++ [b]))
      rw [List.chain'_cons']
      refine ⟨?_, ih _ _ (by simp)⟩
      intro q hq
      cases fuel with
      | zero => simp [mmrLoop] at hq
      | succ fuel' =>
        rw [mmrLoop] at hq
        rcases hpb2 : pickBest (mmrScore rel simm lam (sel ++ [b])) (rem.erase b)
          with ⟨_ | b2, s2⟩
        · rw [hpb2] at hq
          simp at hq
        · rw [hpb2] at hq
          simp only [List.head?_cons, Option.mem_def, Option.some.injEq] at hq
          subst hq
          obtain ⟨hb2mem, hs2, _⟩ := pickBest_bound hpb2
          obtain ⟨_, hs, hmax⟩ := pickBest_bound hpb
          have h2 : mmrScore rel simm lam (sel ++ [b]) b2
              ≤ mmrScore rel simm lam sel b2 :=
            mmrScore_le_append rel simm lam sel b b2 hsel hlam
          have h3 : mmrScore rel simm lam sel b2 ≤ mmrScore rel simm lam sel b :=
            hmax b2 (List.mem_of_mem_erase hb2mem)
          show s2 ≤ s
          rw [hs2, hs]
          exact le_trans h2 h3

/-- C10 amended --: for `lambda ≤ 1`, the MMR result scores are
non-increasing **from the second result onward** (the first-to-second step can
increase, because the diversity penalty of the second pick can be negative
while the first pick's penalty is zero — see the counterexample); the first
result still carries the maximum initial MMR score over all candidates. -/
theorem mmr_scores_monotone_after_first (q : List ℝ) (dv : List (List ℝ))
    (docs : List String) (k : ℤ) (lam : ℝ) (rs : List RerankResultR)
    (hlam0 : 0 ≤ lam) (hlam1 : lam ≤ 1)
    (h : _mmr_rank q dv docs k lam = Except.ok rs) :
    List.Chain' (fun a b : RerankResultR => b.score ≤ a.score) rs.tail ∧
    (∀ r, rs.head? = some r →
      (∀ i ∈ List.range dv.length,
        mmrScore (fun i => _cosine_sim q (dv.getD i []))
          (fun i j => _cosine_sim (dv.getD i []) (dv.getD j [])) lam [] i
          ≤ r.score) ∧
      (∃ i ∈ List.range dv.length,
        r.score = mmrScore (fun i => _cosine_sim q (dv.getD i []))
          (fun i j => _cosine_sim (dv.getD i []) (dv.getD j [])) lam [] i)) := by
  rw [_mmr_rank] at h
  by_cases h1 : dv.length ≠ docs.length
  · rw [if_pos h1] at h
    exact absurd h (by simp)
  · rw [if_neg h1] at h
    by_cases h2 : k ≤ 0
    · rw [if_pos h2] at h
      injection h with h
      subst h
      exact ⟨by simp, fun r hr => by simp at hr⟩
    · rw [if_neg h2] at h
      injection h with h
      subst h
      cases hkk : min k.toNat dv.length with
      | zero =>
        exact ⟨by simp [mmrLoop], fun r hr => by simp [mmrLoop] at hr⟩
      | succ kk =>
        rw [mmrLoop]
        rcases hpb : pickBest
            (mmrScore (fun i => _cosine_sim q (dv.getD i []))
              (fun i j => _cosine_sim (dv.getD i []) (dv.getD j [])) lam [])
            (List.range dv.length) with ⟨_ | b, s⟩
        · exact ⟨by simp, fun r hr => by simp at hr⟩
        · obtain ⟨hbmem, hs, hmax⟩ := pickBest_bound hpb
          constructor
          · show List.Chain' (fun a b : RerankResultR => b.score ≤ a.score)
              ((mmrLoop (fun i => _cosine_sim q (dv.getD i []))
                (fun i j => _cosine_sim (dv.getD i []) (dv.getD j []))
                lam kk ((List.range dv.length).erase b) ([] ++ [b])).map
                (fun p => (⟨p.1, p.2, docs.getD p.1 ""⟩ : RerankResultR)))
            rw [List.chain'_map]
            exact mmrLoop_chain _ _ lam hlam1 kk _ _ (by simp)
          · intro r hr
            simp only [List.map_cons, List.head?_cons, Option.some.injEq] at hr
            subst hr
            exact ⟨fun i hi => by
                show mmrScore _ _ lam [] i ≤ s
                rw [hs]
                exact hmax i hi,
              ⟨b, hbmem, hs⟩⟩

/-- Witness for the amended C10 at the empty instance. -/
theorem mmr_scores_monotone_after_first_witness :
    List.Chain' (fun a b : RerankResultR => b.score ≤ a.score)
      (([] : List RerankResultR)).tail ∧
    (∀ r, (([] : List RerankResultR)).head? = some r →
      (∀ i ∈ List.range ([] : List (List ℝ)).length,
        mmrScore (fun i => _cosine_sim [] (([] : List (List ℝ)).getD i []))
          (fun i j => _cosine_sim (([] : List (List ℝ)).getD i [])
            (([] : List (List ℝ)).getD j [])) (1/2) [] i ≤ r.score) ∧
      (∃ i ∈ List.range ([] : List (List ℝ)).length,
        r.score = mmrScore (fun i => _cosine_sim [] (([] : List (List ℝ)).getD i []))
          (fun i j => _cosine_sim (([] : List (List ℝ)).getD i [])
            (([] : List (List ℝ)).getD j [])) (1/2) [] i)) :=
  mmr_scores_monotone_after_first [] [] [] 0 (1/2) [] (by norm_num) (by norm_num)
    (by with_unfolding_all rfl)

/-- Witness for C8's idempotence conjunct at a concrete one-item list. -/
theorem mergeItems_spec_witness :
    mergeItems ([⟨1, 1/2, none, none⟩] ++ [⟨1, 1/2, none, none⟩])
      = mergeItems [(⟨1, 1/2, none, none⟩ : SearchItem)] :=
  (mergeItems_spec [⟨1, 1/2, none, none⟩]).2.2.2
